import Mathlib

/-!
Verification of the Variable Dependency Scheduler of this repository.

The repository ships the test suite of the scheduler
(`public/app/features/scenes/variables/sets/SceneVariableSet.test.ts`); the
implementation files themselves (`SceneVariableSet.ts`, `TestVariable.ts`)
are not part of the excerpt.  The definitions below are therefore a shallow
embedding modelled from the specification (`spec.md`), kept consistent with
the observable behaviour pinned down by the test file: variables carry a
name, a query template, a resolved value/text and a status; the scheduler
builds a dependency graph from the templates at activation time, starts the
ready variables, and cascades restarts to direct dependents when a value
settles with a changed value.
-/

namespace VarSched

/-- Status of a variable, per the spec's state machine
`Idle → Loading → (Resolved | Error)`. -/
inductive VStatus where
  | Idle
  | Loading
  | Resolved
  | Error
deriving DecidableEq

/-- Modelled from the spec: a Variable owns a name, a query template, a
resolved value/text and a loading/error status.  `loading` is the flag
observable at the public interface (`state.loading` in the tests): absent
(`none`) before the first update is started, `some true` while loading and
`some false` once an update has completed.  `issuedQuery` records the last
interpolated query handed to the executor.  `everResolved` records whether
the variable has ever completed an update successfully (the spec: value and
text are "empty until first successful resolution"; an errored variable
counts as settled for its dependents only if it resolved before).
`inFlight` counts outstanding executor requests: started updates increment
it, completion/failure/cancellation decrement it. -/
structure SVar where
  name : String
  query : String
  value : String
  text : String
  status : VStatus
  loading : Option Bool
  issuedQuery : Option String
  errMsg : Option String
  everResolved : Bool
  inFlight : Nat
deriving DecidableEq

/-- A fresh variable as created by the dashboard definition: empty value and
text, `Idle`, no observable loading flag, nothing in flight. -/
def mkVar (n q : String) : SVar :=
  { name := n, query := q, value := "", text := "", status := .Idle,
    loading := none, issuedQuery := none, errMsg := none,
    everResolved := false, inFlight := 0 }

/-- The dependency graph: for each variable name, the list of names of its
direct dependencies (edge dependent → dependency). -/
abbrev Graph := List (String × List String)

/-- Find the first variable with the given name. -/
def lookupVar : List SVar → String → Option SVar
  | [], _ => none
  | v :: vs, n => if v.name = n then some v else lookupVar vs n

/-- Apply `f` to every variable with the given name, leaving others alone. -/
def updateVar : List SVar → String → (SVar → SVar) → List SVar
  | [], _, _ => []
  | v :: vs, n, f => (if v.name = n then f v else v) :: updateVar vs n f

/-- The names of the variables, in declaration order. -/
def varNames (vs : List SVar) : List String := vs.map (fun v => v.name)

/-- Characters that may form part of a variable reference after `$`. -/
def isWordChar (c : Char) : Bool := c.isAlphanum || c == '_'

/-- Split a character list into its longest prefix of word characters and
the remainder. -/
def takeWord : List Char → List Char × List Char
  | [] => ([], [])
  | c :: cs =>
    if isWordChar c then
      let p := takeWord cs
      (c :: p.1, p.2)
    else
      ([], c :: cs)

theorem takeWord_snd_le : ∀ cs : List Char, (takeWord cs).2.length ≤ cs.length
  | [] => Nat.le_refl _
  | c :: cs => by
    unfold takeWord
    by_cases h : isWordChar c = true
    · simpa [h] using Nat.le_trans (takeWord_snd_le cs) (Nat.le_succ _)
    · simp [h]

/-- Modelled from the spec: the Dependency Extractor.  Scans the template
for `$name` references and returns those whole words that are known
variable names.  The match is boundary aware: the whole maximal word after
`$` must be a known name, so a known name that is merely a prefix of a
longer word is not a reference.  The scan is driven by a fuel counter so
that the recursion is structural; each step consumes at least one
character, so fuel equal to the template length never runs out. -/
def refsAux (known : List String) : Nat → List Char → List String
  | 0, _ => []
  | _ + 1, [] => []
  | fuel + 1, c :: cs =>
    if c = '$' then
      let w := (takeWord cs).1
      let rest := (takeWord cs).2
      if String.mk w ∈ known then String.mk w :: refsAux known fuel rest
      else refsAux known fuel rest
    else
      refsAux known fuel cs

/-- References of a template, restricted to the given known names. -/
def extractRefs (known : List String) (q : String) : List String :=
  refsAux known q.data.length q.data

/-- Modelled from the spec: the Interpolator.  Replaces every `$name`
reference whose name the lookup knows by the current value of that
variable; unknown references are left verbatim.  Fuel-driven like the
extractor. -/
def interpAux (f : String → Option String) : Nat → List Char → List Char
  | 0, _ => []
  | _ + 1, [] => []
  | fuel + 1, c :: cs =>
    if c = '$' then
      let w := (takeWord cs).1
      let rest := (takeWord cs).2
      match f (String.mk w) with
      | some v => v.data ++ interpAux f fuel rest
      | none => c :: (w ++ interpAux f fuel rest)
    else
      c :: interpAux f fuel cs

/-- Current value of the named variable, if present. -/
def valLookup (vs : List SVar) (n : String) : Option String :=
  (lookupVar vs n).map (fun v => v.value)

/-- Interpolate a query template with the current values of the variables. -/
def interpolate (vs : List SVar) (q : String) : String :=
  String.mk (interpAux (valLookup vs) q.data.length q.data)

/-- Modelled from the spec: graph build.  For each variable, extract the
references of its template restricted to the other known variable names and
record the edge dependent → dependency. -/
def buildGraph (vs : List SVar) : Graph :=
  vs.map (fun v => (v.name, (extractRefs ((varNames vs).erase v.name) v.query).dedup))

/-- Direct dependencies of a name in the graph. -/
def depsOf : Graph → String → List String
  | [], _ => []
  | p :: g, n => if p.1 = n then p.2 else depsOf g n

/-- Direct dependents of a name in the graph, in graph (declaration)
order. -/
def dependentsOf : Graph → String → List String
  | [], _ => []
  | p :: g, n => if n ∈ p.2 then p.1 :: dependentsOf g n else dependentsOf g n

/-- One round of Kahn-style elimination: drop every node none of whose
dependencies is still present; keep the nodes that still wait on a present
dependency. -/
def elimStep (g : Graph) : Graph :=
  let ns := g.map (fun p => p.1)
  g.filter (fun p => p.2.any (fun d => decide (d ∈ ns)))

def elimIter : Nat → Graph → Graph
  | 0, g => g
  | n + 1, g => elimIter n (elimStep g)

/-- A topological order exists iff repeated elimination of
dependency-free nodes empties the graph. -/
def isAcyclic (g : Graph) : Bool :=
  (elimIter g.length g).isEmpty

/-- Modelled from the spec: a variable counts as settled for its
dependents' readiness when it is `Resolved`, or when it is `Error` but has
resolved before (dependents then proceed using its prior value); an
errored variable that never resolved blocks its dependents. -/
def settledForReadiness (v : SVar) : Bool :=
  match v.status with
  | .Resolved => true
  | .Error => v.everResolved
  | _ => false

/-- The names of the settled variables, reconstructed from the variable
states. -/
def resolvedSet (vs : List SVar) : List String :=
  (vs.filter settledForReadiness).map (fun v => v.name)

/-- Modelled from the spec: `isReady(name, resolvedSet)` — true iff every
direct dependency of `name` is present in the given resolved set. -/
def isReady (g : Graph) (resolved : List String) (n : String) : Bool :=
  (depsOf g n).all (fun d => decide (d ∈ resolved))

/-- The per-variable effect of starting an update: interpolate the query
template with the current values of all variables, record it as the issued
query (one more request in flight) and enter `Loading`. -/
def startTransform (vs : List SVar) (v : SVar) : SVar :=
  { v with status := .Loading, loading := some true,
           issuedQuery := some (interpolate vs v.query),
           inFlight := v.inFlight + 1 }

/-- Modelled from the spec: `startUpdate` — interpolate the variable's
template with the current values of all variables, issue the query and
enter `Loading`. -/
def startUpdate (vs : List SVar) (n : String) : List SVar :=
  updateVar vs n (startTransform vs)

/-- Modelled from the spec: `cancelUpdate` — abort the outstanding request
and return to `Idle`, where no loading flag is observable. -/
def cancelVar (v : SVar) : SVar :=
  { v with status := .Idle, loading := none, inFlight := v.inFlight - 1 }

/-- The per-variable effect of cancelling when loading. -/
def cancelTransform (v : SVar) : SVar :=
  if v.status = .Loading then cancelVar v else v

/-- Cancel the named variable's in-flight update if it is loading. -/
def cancelIfLoading (vs : List SVar) (n : String) : List SVar :=
  updateVar vs n cancelTransform

/-- Status guard used when a cascade restarts dependents: anything not
currently loading may be (re)started. -/
def okRestart : VStatus → Bool
  | .Loading => false
  | _ => true

/-- Status guard used at activation and after a failure: only variables
still waiting in `Idle` are started. -/
def okIdle : VStatus → Bool
  | .Idle => true
  | _ => false

/-- The resolved set with the names currently being rescheduled in the same
round removed: a dependent whose other dependency is itself about to
restart waits for that dependency's own completion. -/
def availableSet (pending : List String) (vs : List SVar) : List String :=
  (resolvedSet vs).filter (fun m => decide (m ∉ pending))

/-- Start the named variable if its status passes the guard and every
direct dependency is settled and not itself pending in this round. -/
def startGuarded (ok : VStatus → Bool) (g : Graph) (pending : List String)
    (vs : List SVar) (n : String) : List SVar :=
  match lookupVar vs n with
  | none => vs
  | some v =>
    if ok v.status = true ∧ isReady g (availableSet pending vs) n = true then
      startUpdate vs n
    else vs

/-- Modelled from the spec: the reaction to a variable's value settling
with a changed value.  The direct dependents are identified; any of them
with an in-flight update is cancelled first (its query used a now-stale
interpolation); then every dependent that is ready — all dependencies
settled and none of them pending in this same round — is restarted with a
fresh interpolation. -/
def cascadeFrom (g : Graph) (vs : List SVar) (n : String) : List SVar :=
  let pend := dependentsOf g n
  pend.foldl (startGuarded okRestart g pend) (pend.foldl cancelIfLoading vs)

/-- Modelled from the spec: after a per-variable query failure the variable
is settled for readiness purposes (when it has resolved before), so
dependents that were left waiting in `Idle` and are now ready proceed;
nothing already loading or resolved is touched. -/
def failCascade (g : Graph) (vs : List SVar) (n : String) : List SVar :=
  let pend := dependentsOf g n
  pend.foldl (startGuarded okIdle g pend) vs

/-- The Variable Set: the declared collection plus the graph built at
activation (`none` while inactive). -/
structure SetState where
  vars : List SVar
  graph : Option Graph
deriving DecidableEq

/-- Raised at graph-build time when no topological order exists. -/
inductive ActivationError where
  | CycleDetected
deriving DecidableEq

/-- The graph of the active session; inactive sets have no graph and hence
no dependents to cascade to. -/
def activeGraph (s : SetState) : Graph := s.graph.getD []

/-- Modelled from the spec: activation.  Build the graph from the current
templates; fail fast with `CycleDetected` when no topological order
exists, starting nothing.  Otherwise walk the variables in declaration
order and start every `Idle` variable whose direct dependencies are all
already settled; variables with unmet dependencies are left untouched (not
pre-queued). -/
def activate (s : SetState) : Except ActivationError SetState :=
  let g := buildGraph s.vars
  if isAcyclic g = true then
    Except.ok { vars := (varNames s.vars).foldl (startGuarded okIdle g []) s.vars,
                graph := some g }
  else
    Except.error ActivationError.CycleDetected

/-- Modelled from the spec: `completeUpdate`.  Only applicable while
`Loading` (a completion arriving for a variable no longer loading is a
stale result and is discarded).  Sets value and text from the result and
enters `Resolved`; when the value or text changed, the change cascades to
the direct dependents. -/
def resolveTransform (v t : String) (x : SVar) : SVar :=
  { x with value := v, text := t, status := .Resolved,
           loading := some false, errMsg := none,
           everResolved := true, inFlight := x.inFlight - 1 }

def completeUpdate (s : SetState) (n v t : String) : SetState :=
  match lookupVar s.vars n with
  | none => s
  | some var =>
    if var.status = .Loading then
      let vars1 := updateVar s.vars n (resolveTransform v t)
      if var.value = v ∧ var.text = t then
        { s with vars := vars1 }
      else
        { s with vars := cascadeFrom (activeGraph s) vars1 n }
    else s

def errTransform (msg : String) (x : SVar) : SVar :=
  { x with status := .Error, loading := some false,
           errMsg := some msg, inFlight := x.inFlight - 1 }

/-- Modelled from the spec: a per-variable query failure.  The status
becomes `Error` with the error detail attached — nothing is thrown — and
dependents left waiting in `Idle` whose dependencies are now all settled
proceed. -/
def failUpdate (s : SetState) (n msg : String) : SetState :=
  match lookupVar s.vars n with
  | none => s
  | some var =>
    if var.status = .Loading then
      let vars1 := updateVar s.vars n (errTransform msg)
      { s with vars := failCascade (activeGraph s) vars1 n }
    else s

def setValTransform (v t : String) (x : SVar) : SVar :=
  { x with value := v, text := t, status := .Resolved,
           everResolved := true,
           loading := if x.status = .Loading then some false else x.loading,
           inFlight := if x.status = .Loading then x.inFlight - 1 else x.inFlight }

/-- Modelled from the spec: `setValueDirectly` — an externally driven
change, treated like a value-changed completion but without a query; a
still-running own update is superseded (its request is abandoned). -/
def setValueDirectly (s : SetState) (n v t : String) : SetState :=
  match lookupVar s.vars n with
  | none => s
  | some var =>
    let vars1 := updateVar s.vars n (setValTransform v t)
    if var.value = v ∧ var.text = t then
      { s with vars := vars1 }
    else
      { s with vars := cascadeFrom (activeGraph s) vars1 n }

/-- Modelled from the spec: deactivation.  Cancel the update of every
variable currently loading and drop the built graph. -/
def deactivate (s : SetState) : SetState :=
  { vars := s.vars.map cancelTransform, graph := none }

/-- The discrete events the scheduler reacts to. -/
inductive Event where
  | activate
  | deactivate
  | complete (n v t : String)
  | fail (n msg : String)
  | setValue (n v t : String)
deriving DecidableEq

/-- One scheduler reaction.  A failed activation (cycle detected) leaves
the state untouched: the set cannot be activated, no variable is started. -/
def step (s : SetState) : Event → SetState
  | .activate =>
    match activate s with
    | .ok s' => s'
    | .error _ => s
  | .deactivate => deactivate s
  | .complete n v t => completeUpdate s n v t
  | .fail n msg => failUpdate s n msg
  | .setValue n v t => setValueDirectly s n v t

/-- Run a sequence of events. -/
def run (s : SetState) (es : List Event) : SetState := es.foldl step s

/-- A fresh, inactive variable set from (name, template) pairs in
declaration order. -/
def initSet (ps : List (String × String)) : SetState :=
  { vars := ps.map (fun p => mkVar p.1 p.2), graph := none }

/-! ### Basic lemmas about lookup and update -/

theorem lookupVar_name : ∀ {vs : List SVar} {n : String} {v : SVar},
    lookupVar vs n = some v → v.name = n := by
  intro vs
  induction vs with
  | nil => intro n v h; simp [lookupVar] at h
  | cons w vs ih =>
    intro n v h
    by_cases hw : w.name = n
    · simp only [lookupVar, if_pos hw] at h
      cases h; exact hw
    · simp only [lookupVar, if_neg hw] at h
      exact ih h

theorem lookupVar_mem : ∀ {vs : List SVar} {n : String} {v : SVar},
    lookupVar vs n = some v → v ∈ vs := by
  intro vs
  induction vs with
  | nil => intro n v h; simp [lookupVar] at h
  | cons w vs ih =>
    intro n v h
    by_cases hw : w.name = n
    · simp only [lookupVar, if_pos hw] at h
      cases h; exact List.mem_cons_self _ _
    · simp only [lookupVar, if_neg hw] at h
      exact List.mem_cons_of_mem _ (ih h)

theorem lookupVar_of_mem_nodup : ∀ {vs : List SVar} {v : SVar},
    (varNames vs).Nodup → v ∈ vs → lookupVar vs v.name = some v := by
  intro vs
  induction vs with
  | nil => intro v _ h; simp at h
  | cons w vs ih =>
    intro v hnd hv
    have hnd' := hnd
    rw [varNames, List.map_cons, List.nodup_cons] at hnd'
    rcases List.mem_cons.mp hv with h | h
    · subst h; simp [lookupVar]
    · by_cases hw : w.name = v.name
      · exfalso
        exact hnd'.1 (hw ▸ List.mem_map_of_mem (fun x => x.name) h)
      · simp only [lookupVar, if_neg hw]
        exact ih hnd'.2 h

theorem lookupVar_isSome_of_mem_names : ∀ {vs : List SVar} {n : String},
    n ∈ varNames vs → ∃ v, lookupVar vs n = some v := by
  intro vs
  induction vs with
  | nil => intro n h; simp [varNames] at h
  | cons w vs ih =>
    intro n h
    by_cases hw : w.name = n
    · exact ⟨w, by simp [lookupVar, hw]⟩
    · rw [varNames, List.map_cons, List.mem_cons] at h
      rcases h with h | h
      · exact absurd h.symm hw
      · rcases ih h with ⟨v, hv⟩
        exact ⟨v, by simp [lookupVar, hw, hv]⟩

theorem varNames_updateVar (f : SVar → SVar) (hf : ∀ v, (f v).name = v.name) :
    ∀ (vs : List SVar) (n : String), varNames (updateVar vs n f) = varNames vs := by
  intro vs n
  induction vs with
  | nil => rfl
  | cons w vs ih =>
    simp only [updateVar, varNames, List.map_cons]
    by_cases hw : w.name = n
    · rw [if_pos hw, hf]
      exact congrArg _ ih
    · rw [if_neg hw]
      exact congrArg _ ih

theorem lookupVar_updateVar_ne (f : SVar → SVar) (hf : ∀ v, (f v).name = v.name)
    {m n : String} (hmn : m ≠ n) :
    ∀ (vs : List SVar), lookupVar (updateVar vs n f) m = lookupVar vs m := by
  intro vs
  induction vs with
  | nil => rfl
  | cons w vs ih =>
    by_cases hw : w.name = n
    · have h1 : ¬ (f w).name = m := by rw [hf, hw]; intro h; exact hmn h.symm
      have h2 : ¬ w.name = m := by intro h; exact hmn (h ▸ hw)
      simp only [updateVar, lookupVar, if_pos hw, if_neg h1, if_neg h2]
      exact ih
    · by_cases hm : w.name = m
      · simp only [updateVar, lookupVar, if_neg hw, if_pos hm]
      · simp only [updateVar, lookupVar, if_neg hw, if_neg hm]
        exact ih

theorem lookupVar_updateVar_self (f : SVar → SVar) (hf : ∀ v, (f v).name = v.name) :
    ∀ (vs : List SVar) (n : String),
      lookupVar (updateVar vs n f) n = (lookupVar vs n).map f := by
  intro vs n
  induction vs with
  | nil => rfl
  | cons w vs ih =>
    simp only [updateVar, lookupVar]
    by_cases hw : w.name = n
    · rw [if_pos hw, if_pos ((hf w).trans hw), if_pos hw]
      rfl
    · rw [if_neg hw, if_neg hw, if_neg hw]
      exact ih

theorem mem_updateVar : ∀ {vs : List SVar} {n : String} {f : SVar → SVar} {w : SVar},
    w ∈ updateVar vs n f → ∃ v ∈ vs, w = if v.name = n then f v else v := by
  intro vs n f
  induction vs with
  | nil => intro w h; simp [updateVar] at h
  | cons u vs ih =>
    intro w h
    rcases List.mem_cons.mp h with h | h
    · exact ⟨u, List.mem_cons_self _ _, h⟩
    · rcases ih h with ⟨v, hv, he⟩
      exact ⟨v, List.mem_cons_of_mem _ hv, he⟩

theorem updateVar_pointwise (f : SVar → SVar) (hf : ∀ v, (f v).name = v.name)
    {P : SVar → Prop} (hP : ∀ v, P v → P (f v)) {vs : List SVar} {n m : String} {w : SVar}
    (hw : lookupVar vs m = some w) (hPw : P w) :
    ∃ w', lookupVar (updateVar vs n f) m = some w' ∧ P w' := by
  by_cases hmn : m = n
  · subst hmn
    refine ⟨f w, ?_, hP w hPw⟩
    rw [lookupVar_updateVar_self f hf, hw]
    rfl
  · exact ⟨w, by rw [lookupVar_updateVar_ne f hf hmn, hw], hPw⟩

/-! ### Lemmas about the resolved set -/

theorem mem_resolvedSet_of_lookup {vs : List SVar} {n : String} {v : SVar}
    (hv : lookupVar vs n = some v) (hs : settledForReadiness v = true) :
    n ∈ resolvedSet vs := by
  have hm : v ∈ vs.filter settledForReadiness :=
    List.mem_filter.mpr ⟨lookupVar_mem hv, hs⟩
  rw [resolvedSet]
  exact List.mem_map.mpr ⟨v, hm, lookupVar_name hv⟩

theorem lookup_settled_of_mem_resolvedSet {vs : List SVar} {n : String}
    (hnd : (varNames vs).Nodup) (hn : n ∈ resolvedSet vs) :
    ∃ v, lookupVar vs n = some v ∧ settledForReadiness v = true := by
  rcases List.mem_map.mp hn with ⟨v, hv, hname⟩
  rcases List.mem_filter.mp hv with ⟨hmem, hs⟩
  exact ⟨v, hname ▸ lookupVar_of_mem_nodup hnd hmem, hs⟩

theorem resolvedSet_eq_nil {vs : List SVar}
    (h : ∀ v ∈ vs, settledForReadiness v = false) : resolvedSet vs = [] := by
  rw [resolvedSet, List.map_eq_nil_iff, List.filter_eq_nil_iff]
  intro v hv
  simp [h v hv]

/-! ### Lemmas about the extractor and the graph -/

theorem nodup_not_mem_erase {a : String} : ∀ {l : List String}, l.Nodup → a ∉ l.erase a := by
  intro l
  induction l with
  | nil => intro _ h; simp at h
  | cons b l ih =>
    intro hnd h
    rcases List.nodup_cons.mp hnd with ⟨hb, hl⟩
    by_cases hab : b = a
    · subst hab
      rw [List.erase_cons_head] at h
      exact hb h
    · rw [List.erase_cons_tail (by simp [hab])] at h
      rcases List.mem_cons.mp h with h1 | h1
      · exact hab h1.symm
      · exact ih hl h1

theorem refsAux_subset {known : List String} :
    ∀ {fuel : Nat} {l : List Char} {x : String}, x ∈ refsAux known fuel l → x ∈ known := by
  intro fuel
  induction fuel with
  | zero => intro l x hx; simp [refsAux] at hx
  | succ fuel ih =>
    intro l x hx
    match l with
    | [] => simp [refsAux] at hx
    | c :: cs =>
      rw [refsAux] at hx
      by_cases hc : c = '$'
      · rw [if_pos hc] at hx
        by_cases hk : String.mk (takeWord cs).1 ∈ known
        · rw [if_pos hk] at hx
          rcases List.mem_cons.mp hx with h1 | h1
          · exact h1 ▸ hk
          · exact ih h1
        · rw [if_neg hk] at hx
          exact ih hx
      · rw [if_neg hc] at hx
        exact ih hx

theorem extractRefs_subset {known : List String} {q : String} {x : String}
    (hx : x ∈ extractRefs known q) : x ∈ known :=
  refsAux_subset hx

theorem depsOf_mapGraph (known : List String) :
    ∀ (vs : List SVar) (n x : String),
      x ∈ depsOf (vs.map (fun v => (v.name, (extractRefs (known.erase v.name) v.query).dedup))) n →
      x ∈ known.erase n := by
  intro vs
  induction vs with
  | nil => intro n x h; simp [depsOf] at h
  | cons w vs ih =>
    intro n x h
    simp only [List.map_cons, depsOf] at h
    by_cases hw : w.name = n
    · rw [if_pos hw] at h
      rw [← hw]
      exact extractRefs_subset (List.mem_dedup.mp h)
    · rw [if_neg hw] at h
      exact ih n x h

theorem no_self_dep {vs : List SVar} {n : String} (hnd : (varNames vs).Nodup) :
    n ∉ depsOf (buildGraph vs) n := by
  intro h
  exact nodup_not_mem_erase hnd (depsOf_mapGraph (varNames vs) vs n n h)

theorem mem_dependentsOf : ∀ {g : Graph} {n x : String},
    x ∈ dependentsOf g n ↔ ∃ p, p ∈ g ∧ p.1 = x ∧ n ∈ p.2 := by
  intro g
  induction g with
  | nil => intro n x; simp [dependentsOf]
  | cons p g ih =>
    intro n x
    constructor
    · intro h
      by_cases hp : n ∈ p.2
      · rw [dependentsOf, if_pos hp] at h
        rcases List.mem_cons.mp h with h1 | h1
        · exact ⟨p, List.mem_cons_self _ _, h1.symm, hp⟩
        · rcases ih.mp h1 with ⟨q, hq, hx, hn⟩
          exact ⟨q, List.mem_cons_of_mem _ hq, hx, hn⟩
      · rw [dependentsOf, if_neg hp] at h
        rcases ih.mp h with ⟨q, hq, hx, hn⟩
        exact ⟨q, List.mem_cons_of_mem _ hq, hx, hn⟩
    · rintro ⟨q, hq, hx, hn⟩
      rcases List.mem_cons.mp hq with h1 | h1
      · subst h1
        rw [dependentsOf, if_pos hn]
        exact hx ▸ List.mem_cons_self _ _
      · by_cases hp : n ∈ p.2
        · rw [dependentsOf, if_pos hp]
          exact List.mem_cons_of_mem _ (ih.mpr ⟨q, h1, hx, hn⟩)
        · rw [dependentsOf, if_neg hp]
          exact ih.mpr ⟨q, h1, hx, hn⟩

theorem no_self_dependent {vs : List SVar} {n : String} (hnd : (varNames vs).Nodup) :
    n ∉ dependentsOf (buildGraph vs) n := by
  intro h
  rcases mem_dependentsOf.mp h with ⟨p, hp, hx, hn⟩
  rcases List.mem_map.mp hp with ⟨v, _, hv⟩
  have h2 : n ∈ (extractRefs ((varNames vs).erase v.name) v.query).dedup := by
    have h5 := hn
    rw [← hv] at h5
    exact h5
  have h3 : n ∈ (varNames vs).erase v.name := extractRefs_subset (List.mem_dedup.mp h2)
  have h4 : v.name = n := by rw [← hx, ← hv]
  rw [h4] at h3
  exact nodup_not_mem_erase hnd h3

theorem dependentsOf_sublist_keys : ∀ (g : Graph) (n : String),
    (dependentsOf g n).Sublist (g.map (fun p => p.1)) := by
  intro g n
  induction g with
  | nil => simp [dependentsOf]
  | cons p g ih =>
    by_cases hp : n ∈ p.2
    · rw [dependentsOf, if_pos hp, List.map_cons]
      exact List.Sublist.cons₂ _ ih
    · rw [dependentsOf, if_neg hp, List.map_cons]
      exact List.Sublist.cons _ ih

theorem buildGraph_keys (vs : List SVar) :
    (buildGraph vs).map (fun p => p.1) = varNames vs := by
  rw [buildGraph, List.map_map]
  rfl

theorem dependentsOf_nodup {vs : List SVar} {n : String} (hnd : (varNames vs).Nodup) :
    (dependentsOf (buildGraph vs) n).Nodup := by
  have h := dependentsOf_sublist_keys (buildGraph vs) n
  rw [buildGraph_keys] at h
  exact hnd.sublist h

theorem mem_varNames_of_mem_dependentsOf {vs : List SVar} {n x : String}
    (hx : x ∈ dependentsOf (buildGraph vs) n) : x ∈ varNames vs := by
  rcases mem_dependentsOf.mp hx with ⟨p, hp, hpx, _⟩
  rcases List.mem_map.mp hp with ⟨v, hv, hveq⟩
  have : v.name = x := by rw [← hpx, ← hveq]
  exact this ▸ List.mem_map_of_mem _ hv

/-! ### Shape of a guarded start step, and generic fold lemmas -/

theorem startTransform_name (vs : List SVar) (v : SVar) :
    (startTransform vs v).name = v.name := rfl

theorem cancelTransform_name (v : SVar) : (cancelTransform v).name = v.name := by
  rw [cancelTransform]
  by_cases h : v.status = .Loading
  · rw [if_pos h]; rfl
  · rw [if_neg h]

/-- A fold step is either the identity or a guarded start: it starts its
argument only when that variable exists, is not loading, and is ready with
respect to the pending-filtered resolved set. -/
def StepShape (g : Graph) (pending : List String)
    (gstep : List SVar → String → List SVar) : Prop :=
  ∀ vs n, gstep vs n = vs ∨
    ∃ w, lookupVar vs n = some w ∧ w.status ≠ VStatus.Loading ∧
      isReady g (availableSet pending vs) n = true ∧ gstep vs n = startUpdate vs n

theorem startGuarded_shape {ok : VStatus → Bool} (hok : ok VStatus.Loading = false)
    (g : Graph) (pending : List String) : StepShape g pending (startGuarded ok g pending) := by
  intro vs n
  cases hl : lookupVar vs n with
  | none => left; simp [startGuarded, hl]
  | some w =>
    by_cases hc : ok w.status = true ∧ isReady g (availableSet pending vs) n = true
    · right
      refine ⟨w, rfl, ?_, hc.2, ?_⟩
      · intro hw
        rw [hw, hok] at hc
        exact Bool.false_ne_true hc.1
      · simp only [startGuarded, hl]
        rw [if_pos hc]
    · left
      simp only [startGuarded, hl]
      rw [if_neg hc]

theorem stepShape_lookup_ne {g : Graph} {pending : List String}
    {gstep : List SVar → String → List SVar} (hs : StepShape g pending gstep)
    {m : String} (vs : List SVar) (n : String) (hnm : n ≠ m) :
    lookupVar (gstep vs n) m = lookupVar vs m := by
  rcases hs vs n with h | ⟨w, _, _, _, h⟩
  · rw [h]
  · rw [h, startUpdate, lookupVar_updateVar_ne (startTransform vs) (fun _ => rfl) (fun he => hnm he.symm)]

theorem stepShape_varNames {g : Graph} {pending : List String}
    {gstep : List SVar → String → List SVar} (hs : StepShape g pending gstep)
    (vs : List SVar) (n : String) : varNames (gstep vs n) = varNames vs := by
  rcases hs vs n with h | ⟨w, _, _, _, h⟩
  · rw [h]
  · rw [h, startUpdate, varNames_updateVar (startTransform vs) (fun _ => rfl)]

theorem foldl_stepShape_varNames {g : Graph} {pending : List String}
    {gstep : List SVar → String → List SVar} (hs : StepShape g pending gstep) :
    ∀ (l : List String) (vs : List SVar), varNames (l.foldl gstep vs) = varNames vs := by
  intro l
  induction l with
  | nil => intro vs; rfl
  | cons n l ih =>
    intro vs
    rw [List.foldl_cons, ih, stepShape_varNames hs]

theorem foldl_stepShape_lookup_not_mem {g : Graph} {pending : List String}
    {gstep : List SVar → String → List SVar} (hs : StepShape g pending gstep) :
    ∀ (l : List String) (vs : List SVar) (m : String), m ∉ l →
      lookupVar (l.foldl gstep vs) m = lookupVar vs m := by
  intro l
  induction l with
  | nil => intro vs m _; rfl
  | cons n l ih =>
    intro vs m hm
    have h1 : m ∉ l := fun h => hm (List.mem_cons_of_mem _ h)
    have h2 : n ≠ m := fun h => hm (by rw [← h]; exact List.mem_cons_self _ _)
    rw [List.foldl_cons, ih _ _ h1, stepShape_lookup_ne hs _ _ h2]

theorem stepShape_pred {g : Graph} {pending : List String}
    {gstep : List SVar → String → List SVar} (hs : StepShape g pending gstep)
    (P : SVar → Prop)
    (hP : ∀ vs w, w.status ≠ VStatus.Loading → P w → P (startTransform vs w)) :
    ∀ (vs : List SVar) (n m : String) (w : SVar),
      lookupVar vs m = some w → P w →
      ∃ w', lookupVar (gstep vs n) m = some w' ∧ P w' := by
  intro vs n m w hw hPw
  rcases hs vs n with h | ⟨w0, hw0, hnl, _, h⟩
  · exact ⟨w, by rw [h]; exact hw, hPw⟩
  · by_cases hmn : m = n
    · subst hmn
      have he : w0 = w := by rw [hw] at hw0; cases hw0; rfl
      subst he
      refine ⟨startTransform vs w0, ?_, hP vs w0 hnl hPw⟩
      rw [h, startUpdate, lookupVar_updateVar_self (startTransform vs) (fun _ => rfl), hw]
      rfl
    · exact ⟨w, by rw [h, startUpdate, lookupVar_updateVar_ne (startTransform vs) (fun _ => rfl) hmn, hw], hPw⟩

theorem foldl_stepShape_pred {g : Graph} {pending : List String}
    {gstep : List SVar → String → List SVar} (hs : StepShape g pending gstep)
    (P : SVar → Prop)
    (hP : ∀ vs w, w.status ≠ VStatus.Loading → P w → P (startTransform vs w)) :
    ∀ (l : List String) (vs : List SVar) (m : String) (w : SVar),
      lookupVar vs m = some w → P w →
      ∃ w', lookupVar (l.foldl gstep vs) m = some w' ∧ P w' := by
  intro l
  induction l with
  | nil => intro vs m w hw hPw; exact ⟨w, hw, hPw⟩
  | cons n l ih =>
    intro vs m w hw hPw
    rcases stepShape_pred hs P hP vs n m w hw hPw with ⟨w', hw', hPw'⟩
    exact ih _ _ _ hw' hPw'

theorem startGuarded_settled_frame {ok : VStatus → Bool}
    (hblock : ∀ x : SVar, settledForReadiness x = true → ok x.status = false)
    (g : Graph) (pending : List String) :
    ∀ (vs : List SVar) (n m : String) (u : SVar),
      lookupVar vs m = some u → settledForReadiness u = true →
      lookupVar (startGuarded ok g pending vs n) m = some u := by
  intro vs n m u hu hsu
  cases hl : lookupVar vs n with
  | none => simp only [startGuarded, hl]; exact hu
  | some w =>
    simp only [startGuarded, hl]
    by_cases hc : ok w.status = true ∧ isReady g (availableSet pending vs) n = true
    · rw [if_pos hc]
      by_cases hmn : m = n
      · subst hmn
        have he : w = u := by rw [hu] at hl; cases hl; rfl
        subst he
        rw [hblock w hsu] at hc
        exact absurd hc.1 Bool.false_ne_true
      · rw [startUpdate, lookupVar_updateVar_ne (startTransform vs) (fun _ => rfl) hmn]
        exact hu
    · rw [if_neg hc]
      exact hu

theorem foldl_startGuarded_settled {ok : VStatus → Bool}
    (hblock : ∀ x : SVar, settledForReadiness x = true → ok x.status = false)
    (g : Graph) (pending : List String) :
    ∀ (l : List String) (vs : List SVar) (m : String) (u : SVar),
      lookupVar vs m = some u → settledForReadiness u = true →
      lookupVar (l.foldl (startGuarded ok g pending) vs) m = some u := by
  intro l
  induction l with
  | nil => intro vs m u hu _; exact hu
  | cons n l ih =>
    intro vs m u hu hsu
    exact ih _ _ _ (startGuarded_settled_frame hblock g pending vs n m u hu hsu) hsu

theorem okIdle_blocks_settled : ∀ x : SVar, settledForReadiness x = true → okIdle x.status = false := by
  intro x hx
  rw [settledForReadiness] at hx
  cases h : x.status with
  | Resolved => rfl
  | Error => rfl
  | Idle => rw [h] at hx; exact absurd hx Bool.false_ne_true
  | Loading => rw [h] at hx; exact absurd hx Bool.false_ne_true

/-! ### Readiness helpers -/

theorem mem_availableSet {pending : List String} {vs : List SVar} {x : String} :
    x ∈ availableSet pending vs ↔ x ∈ resolvedSet vs ∧ x ∉ pending := by
  rw [availableSet, List.mem_filter]
  simp

theorem isReady_eq_true_iff {g : Graph} {resolved : List String} {n : String} :
    isReady g resolved n = true ↔ ∀ d ∈ depsOf g n, d ∈ resolved := by
  rw [isReady, List.all_eq_true]
  simp

/-! ### A ready variable passed over by the guarded-start fold is started -/

theorem foldl_startGuarded_starts (ok : VStatus → Bool) (hok : ok VStatus.Loading = false)
    {g : Graph} {pending : List String} :
    ∀ (l : List String), l.Nodup →
      ∀ (vs : List SVar), (varNames vs).Nodup →
      ∀ (d : String) (dv : SVar), lookupVar vs d = some dv → ok dv.status = true →
        d ∈ l →
        (∀ dep ∈ depsOf g d, dep ∉ pending ∧
          (∃ u, lookupVar vs dep = some u ∧ settledForReadiness u = true) ∧
          (dep ∉ l ∨ ∀ x : SVar, settledForReadiness x = true → ok x.status = false)) →
        ∃ w, lookupVar (l.foldl (startGuarded ok g pending) vs) d = some w ∧
          w.status = VStatus.Loading ∧ w.loading = some true := by
  intro l
  induction l with
  | nil => intro _ vs _ d dv _ _ hd _; exact absurd hd (List.not_mem_nil d)
  | cons n l ih =>
    intro hnd vs hvnd d dv hdv hok2 hd hdeps
    rw [List.foldl_cons]
    rcases List.nodup_cons.mp hnd with ⟨hnl, hl⟩
    by_cases hdn : d = n
    · subst hdn
      have hready : isReady g (availableSet pending vs) d = true := by
        rw [isReady_eq_true_iff]
        intro dep hdep
        rcases hdeps dep hdep with ⟨hp, ⟨u, hu, hsu⟩, _⟩
        exact mem_availableSet.mpr ⟨mem_resolvedSet_of_lookup hu hsu, hp⟩
      have hstep : startGuarded ok g pending vs d = startUpdate vs d := by
        simp only [startGuarded, hdv]
        rw [if_pos ⟨hok2, hready⟩]
      rw [hstep]
      have hld : lookupVar (startUpdate vs d) d = some (startTransform vs dv) := by
        rw [startUpdate, lookupVar_updateVar_self (startTransform vs) (fun _ => rfl), hdv]
        rfl
      exact foldl_stepShape_pred (startGuarded_shape hok g pending)
        (fun v => v.status = VStatus.Loading ∧ v.loading = some true)
        (fun _ w hw hP => absurd hP.1 hw) l (startUpdate vs d) d
        (startTransform vs dv) hld ⟨rfl, rfl⟩
    · have hdl : d ∈ l := (List.mem_cons.mp hd).resolve_left hdn
      have hshape := startGuarded_shape hok g pending
      have hnames : (varNames (startGuarded ok g pending vs n)).Nodup := by
        rw [stepShape_varNames hshape]; exact hvnd
      have hdv' : lookupVar (startGuarded ok g pending vs n) d = some dv := by
        rw [stepShape_lookup_ne hshape _ _ (fun h => hdn h.symm)]
        exact hdv
      apply ih hl _ hnames d dv hdv' hok2 hdl
      intro dep hdep
      rcases hdeps dep hdep with ⟨hp, ⟨u, hu, hsu⟩, hb⟩
      refine ⟨hp, ?_, ?_⟩
      · rcases hb with hb | hb
        · have hnd2 : n ≠ dep := fun h => hb (by rw [← h]; exact List.mem_cons_self _ _)
          refine ⟨u, ?_, hsu⟩
          rw [stepShape_lookup_ne hshape _ _ hnd2]
          exact hu
        · exact ⟨u, startGuarded_settled_frame hb g pending vs n dep u hu hsu, hsu⟩
      · rcases hb with hb | hb
        · exact Or.inl (fun h => hb (List.mem_cons_of_mem _ h))
        · exact Or.inr hb

/-! ### A variable that becomes loading during a guarded-start fold was
ready: all its direct dependencies are settled in the resulting state -/

theorem foldl_startGuarded_newLoading {ok : VStatus → Bool} (hok : ok VStatus.Loading = false)
    {g : Graph} {pending : List String} :
    ∀ (l : List String),
      ((∀ x ∈ l, x ∈ pending) ∨ (∀ x : SVar, settledForReadiness x = true → ok x.status = false)) →
      ∀ (vs : List SVar), (varNames vs).Nodup →
      ∀ (d : String), d ∉ depsOf g d →
      ∀ (w w' : SVar), lookupVar vs d = some w → w.status ≠ VStatus.Loading →
        lookupVar (l.foldl (startGuarded ok g pending) vs) d = some w' →
        w'.status = VStatus.Loading →
        ∀ dep ∈ depsOf g d,
          ∃ u, lookupVar (l.foldl (startGuarded ok g pending) vs) dep = some u ∧
            settledForReadiness u = true := by
  intro l
  induction l with
  | nil =>
    intro _ vs _ d _ w w' hw hnl hw' hl'
    rw [List.foldl_nil] at hw'
    rw [hw] at hw'
    cases hw'
    exact absurd hl' hnl
  | cons n l ih =>
    intro hfr vs hvnd d hds w w' hw hnl hw' hl' dep hdep
    rw [List.foldl_cons] at hw' ⊢
    have hshape := startGuarded_shape hok g pending
    have hfr' : (∀ x ∈ l, x ∈ pending) ∨
        (∀ x : SVar, settledForReadiness x = true → ok x.status = false) := by
      rcases hfr with hfr | hfr
      · exact Or.inl (fun x hx => hfr x (List.mem_cons_of_mem _ hx))
      · exact Or.inr hfr
    by_cases hdn : d = n
    · subst hdn
      rcases hshape vs d with h | ⟨w0, hw0, hnl0, hready, heq⟩
      · rw [h] at hw' ⊢
        exact ih hfr' vs hvnd d hds w w' hw hnl hw' hl' dep hdep
      · -- the step started d: its dependencies were ready then and stay settled
        have hdepd : dep ≠ d := fun h => hds (h ▸ hdep)
        have havail : dep ∈ availableSet pending vs :=
          isReady_eq_true_iff.mp hready dep hdep
        rcases mem_availableSet.mp havail with ⟨hres, hp⟩
        rcases lookup_settled_of_mem_resolvedSet hvnd hres with ⟨u, hu, hsu⟩
        have hu1 : lookupVar (startGuarded ok g pending vs d) dep = some u := by
          rw [heq, startUpdate, lookupVar_updateVar_ne (startTransform vs) (fun _ => rfl) hdepd]
          exact hu
        rcases hfr with hfr | hfr
        · have hdeple : dep ∉ l := fun h => hp (hfr dep (List.mem_cons_of_mem _ h))
          refine ⟨u, ?_, hsu⟩
          rw [foldl_stepShape_lookup_not_mem hshape l _ dep hdeple]
          exact hu1
        · exact ⟨u, foldl_startGuarded_settled hfr g pending l _ dep u hu1 hsu, hsu⟩
    · have hdv' : lookupVar (startGuarded ok g pending vs n) d = some w := by
        rw [stepShape_lookup_ne hshape _ _ (fun h => hdn h.symm)]
        exact hw
      have hnames : (varNames (startGuarded ok g pending vs n)).Nodup := by
        rw [stepShape_varNames hshape]; exact hvnd
      exact ih hfr' _ hnames d hds w w' hdv' hnl hw' hl' dep hdep

/-! ### Lemmas about the cancellation pass -/

theorem cancelTransform_not_loading (v : SVar) : (cancelTransform v).status ≠ VStatus.Loading := by
  rw [cancelTransform]
  by_cases h : v.status = .Loading
  · rw [if_pos h]
    intro hc
    exact VStatus.noConfusion hc
  · rw [if_neg h]
    exact h

theorem cancelTransform_idem (v : SVar) :
    cancelTransform (cancelTransform v) = cancelTransform v := by
  by_cases h : v.status = .Loading
  · have h1 : cancelTransform v = cancelVar v := by rw [cancelTransform, if_pos h]
    rw [h1, cancelTransform, if_neg]
    intro hc
    exact VStatus.noConfusion hc
  · have h1 : cancelTransform v = v := by rw [cancelTransform, if_neg h]
    rw [h1]
    exact h1

theorem cancelIfLoading_lookup_ne {vs : List SVar} {n m : String} (hnm : n ≠ m) :
    lookupVar (cancelIfLoading vs n) m = lookupVar vs m := by
  rw [cancelIfLoading, lookupVar_updateVar_ne cancelTransform cancelTransform_name
    (fun h => hnm h.symm)]

theorem cancelIfLoading_varNames (vs : List SVar) (n : String) :
    varNames (cancelIfLoading vs n) = varNames vs := by
  rw [cancelIfLoading, varNames_updateVar cancelTransform cancelTransform_name]

theorem foldl_cancel_varNames :
    ∀ (l : List String) (vs : List SVar), varNames (l.foldl cancelIfLoading vs) = varNames vs := by
  intro l
  induction l with
  | nil => intro vs; rfl
  | cons n l ih =>
    intro vs
    rw [List.foldl_cons, ih, cancelIfLoading_varNames]

theorem foldl_cancel_lookup_not_mem :
    ∀ (l : List String) (vs : List SVar) (m : String), m ∉ l →
      lookupVar (l.foldl cancelIfLoading vs) m = lookupVar vs m := by
  intro l
  induction l with
  | nil => intro vs m _; rfl
  | cons n l ih =>
    intro vs m hm
    have h1 : m ∉ l := fun h => hm (List.mem_cons_of_mem _ h)
    have h2 : n ≠ m := fun h => hm (by rw [← h]; exact List.mem_cons_self _ _)
    rw [List.foldl_cons, ih _ _ h1, cancelIfLoading_lookup_ne h2]

theorem cancelIfLoading_pointwise {P : SVar → Prop} (hP : ∀ v, P v → P (cancelTransform v))
    {vs : List SVar} {n m : String} {w : SVar}
    (hw : lookupVar vs m = some w) (hPw : P w) :
    ∃ w', lookupVar (cancelIfLoading vs n) m = some w' ∧ P w' := by
  rw [cancelIfLoading]
  exact updateVar_pointwise cancelTransform cancelTransform_name hP hw hPw

theorem foldl_cancel_pred {P : SVar → Prop} (hP : ∀ v, P v → P (cancelTransform v)) :
    ∀ (l : List String) (vs : List SVar) (m : String) (w : SVar),
      lookupVar vs m = some w → P w →
      ∃ w', lookupVar (l.foldl cancelIfLoading vs) m = some w' ∧ P w' := by
  intro l
  induction l with
  | nil => intro vs m w hw hPw; exact ⟨w, hw, hPw⟩
  | cons n l ih =>
    intro vs m w hw hPw
    rcases cancelIfLoading_pointwise hP hw hPw with ⟨w', hw', hPw'⟩
    exact ih _ _ _ hw' hPw'

theorem foldl_cancel_cancels :
    ∀ (l : List String) (vs : List SVar) (x : String) (w : SVar), x ∈ l →
      lookupVar vs x = some w →
      lookupVar (l.foldl cancelIfLoading vs) x = some (cancelTransform w) := by
  intro l
  induction l with
  | nil => intro vs x w hx _; exact absurd hx (List.not_mem_nil x)
  | cons n l ih =>
    intro vs x w hx hw
    rw [List.foldl_cons]
    by_cases hxn : x = n
    · subst hxn
      have h1 : lookupVar (cancelIfLoading vs x) x = some (cancelTransform w) := by
        rw [cancelIfLoading, lookupVar_updateVar_self cancelTransform cancelTransform_name, hw]
        rfl
      rcases @foldl_cancel_pred (fun v => v = cancelTransform w)
        (fun v hv => by rw [hv, cancelTransform_idem]) l _ x (cancelTransform w) h1 rfl with
        ⟨w', hw', he⟩
      rw [he] at hw'
      exact hw'
    · have hxl : x ∈ l := (List.mem_cons.mp hx).resolve_left hxn
      have hw1 : lookupVar (cancelIfLoading vs n) x = some w := by
        rw [cancelIfLoading_lookup_ne (fun h => hxn h.symm)]
        exact hw
      exact ih _ _ _ hxl hw1

/-! ### The value map and interpolation congruence -/

/-- The name, query and value of every variable, in order: interpolation of
any template is determined by this map. -/
def vmap (vs : List SVar) : List (String × String × String) :=
  vs.map (fun v => (v.name, v.query, v.value))

theorem valLookup_congr : ∀ {vs vs' : List SVar}, vmap vs = vmap vs' →
    ∀ n, valLookup vs n = valLookup vs' n := by
  intro vs
  induction vs with
  | nil =>
    intro vs' h n
    cases vs' with
    | nil => rfl
    | cons w vs' => exact absurd h (by simp [vmap])
  | cons v vs ih =>
    intro vs' h n
    cases vs' with
    | nil => exact absurd h (by simp [vmap])
    | cons w vs'' =>
      rw [vmap, List.map_cons, vmap, List.map_cons] at h
      injection h with h1 h2
      injection h1 with hn hqv
      injection hqv with hq hv
      rw [valLookup, lookupVar, valLookup, lookupVar]
      by_cases hvn : v.name = n
      · rw [if_pos hvn, if_pos (hn ▸ hvn)]
        simp only [Option.map_some']
        rw [hv]
      · rw [if_neg hvn, if_neg (fun hc => hvn (by rw [hn]; exact hc))]
        exact ih h2 n

theorem interpAux_congr (f f' : String → Option String) (h : ∀ x, f x = f' x) :
    ∀ (fuel : Nat) (l : List Char), interpAux f fuel l = interpAux f' fuel l := by
  intro fuel
  induction fuel with
  | zero => intro l; rw [interpAux, interpAux]
  | succ fuel ih =>
    intro l
    match l with
    | [] => rw [interpAux, interpAux]
    | c :: cs =>
      simp only [interpAux]
      by_cases hc : c = '$'
      · rw [if_pos hc, if_pos hc, h, ih]
      · rw [if_neg hc, if_neg hc, ih]

theorem interpolate_congr {vs vs' : List SVar} (h : vmap vs = vmap vs') (q : String) :
    interpolate vs q = interpolate vs' q := by
  rw [interpolate, interpolate, interpAux_congr _ _ (valLookup_congr h)]

theorem vmap_updateVar (f : SVar → SVar)
    (hf : ∀ v, ((f v).name, (f v).query, (f v).value) = (v.name, v.query, v.value)) :
    ∀ (vs : List SVar) (n : String), vmap (updateVar vs n f) = vmap vs := by
  intro vs n
  induction vs with
  | nil => rfl
  | cons v vs ih =>
    simp only [updateVar, vmap, List.map_cons]
    by_cases hv : v.name = n
    · rw [if_pos hv, hf]
      exact congrArg _ ih
    · rw [if_neg hv]
      exact congrArg _ ih

theorem cancelTransform_nqv (v : SVar) :
    ((cancelTransform v).name, (cancelTransform v).query, (cancelTransform v).value) =
      (v.name, v.query, v.value) := by
  rw [cancelTransform]
  by_cases h : v.status = .Loading
  · rw [if_pos h]; rfl
  · rw [if_neg h]

theorem vmap_startUpdate (vs : List SVar) (n : String) :
    vmap (startUpdate vs n) = vmap vs := by
  rw [startUpdate, vmap_updateVar (startTransform vs) (fun _ => rfl)]

theorem vmap_cancelIfLoading (vs : List SVar) (n : String) :
    vmap (cancelIfLoading vs n) = vmap vs := by
  rw [cancelIfLoading, vmap_updateVar cancelTransform cancelTransform_nqv]

theorem vmap_stepShape {g : Graph} {pending : List String}
    {gstep : List SVar → String → List SVar} (hs : StepShape g pending gstep)
    (vs : List SVar) (n : String) : vmap (gstep vs n) = vmap vs := by
  rcases hs vs n with h | ⟨_, _, _, _, h⟩
  · rw [h]
  · rw [h, vmap_startUpdate]

theorem vmap_foldl_stepShape {g : Graph} {pending : List String}
    {gstep : List SVar → String → List SVar} (hs : StepShape g pending gstep) :
    ∀ (l : List String) (vs : List SVar), vmap (l.foldl gstep vs) = vmap vs := by
  intro l
  induction l with
  | nil => intro vs; rfl
  | cons n l ih =>
    intro vs
    rw [List.foldl_cons, ih, vmap_stepShape hs]

theorem vmap_foldl_cancel :
    ∀ (l : List String) (vs : List SVar), vmap (l.foldl cancelIfLoading vs) = vmap vs := by
  intro l
  induction l with
  | nil => intro vs; rfl
  | cons n l ih =>
    intro vs
    rw [List.foldl_cons, ih, vmap_cancelIfLoading]

/-! ### Freshness: a variable loading after a guarded-start round carries
the interpolation of the current values -/

theorem foldl_startGuarded_fresh (ok : VStatus → Bool) (hok : ok VStatus.Loading = false)
    {g : Graph} {pending : List String} :
    ∀ (l : List String),
      ∀ (vs vsB : List SVar), vmap vs = vmap vsB →
      (∀ x w, x ∈ pending → lookupVar vs x = some w → w.status = VStatus.Loading →
        w.issuedQuery = some (interpolate vsB w.query)) →
      ∀ x w, x ∈ pending → lookupVar (l.foldl (startGuarded ok g pending) vs) x = some w →
        w.status = VStatus.Loading → w.issuedQuery = some (interpolate vsB w.query) := by
  intro l
  induction l with
  | nil => intro vs vsB _ hinv x w hx hw hl; exact hinv x w hx hw hl
  | cons n l ih =>
    intro vs vsB hv hinv x w hx hw hl
    rw [List.foldl_cons] at hw
    have hshape := startGuarded_shape hok g pending
    have hv' : vmap (startGuarded ok g pending vs n) = vmap vsB := by
      rw [vmap_stepShape hshape]; exact hv
    refine ih _ _ hv' ?_ x w hx hw hl
    intro y u hy hu hlu
    rcases hshape vs n with h | ⟨w0, hw0, hnl0, _, h⟩
    · rw [h] at hu
      exact hinv y u hy hu hlu
    · by_cases hyn : y = n
      · subst hyn
        rw [h, startUpdate, lookupVar_updateVar_self (startTransform vs) (fun _ => rfl), hw0] at hu
        cases hu
        show some (interpolate vs w0.query) = some (interpolate vsB w0.query)
        rw [interpolate_congr hv]
      · rw [h, startUpdate, lookupVar_updateVar_ne (startTransform vs) (fun _ => rfl) hyn] at hu
        exact hinv y u hy hu hlu

/-! ### The in-flight invariant: a variable has exactly one outstanding
request while `Loading` and none otherwise -/

def InvVar (v : SVar) : Prop :=
  v.inFlight = (if v.status = VStatus.Loading then 1 else 0)

def AllInv (vs : List SVar) : Prop := ∀ v ∈ vs, InvVar v

theorem InvVar_cancelTransform {v : SVar} (h : InvVar v) : InvVar (cancelTransform v) := by
  rw [cancelTransform]
  by_cases hl : v.status = .Loading
  · rw [if_pos hl]
    rw [InvVar] at h ⊢
    rw [if_pos hl] at h
    have h1 : (cancelVar v).status = VStatus.Idle := rfl
    rw [h1, if_neg (fun hc => VStatus.noConfusion hc)]
    show v.inFlight - 1 = 0
    rw [h]
  · rw [if_neg hl]
    exact h

theorem InvVar_resolveTransform {x : SVar} (v t : String) (h : InvVar x) :
    InvVar (resolveTransform v t x) := by
  rw [InvVar] at h ⊢
  have h1 : (resolveTransform v t x).status = VStatus.Resolved := rfl
  rw [h1, if_neg (fun hc => VStatus.noConfusion hc)]
  show x.inFlight - 1 = 0
  rw [h]
  by_cases hl : x.status = .Loading
  · rw [if_pos hl]
  · rw [if_neg hl]

theorem InvVar_errTransform {x : SVar} (msg : String) (h : InvVar x) :
    InvVar (errTransform msg x) := by
  rw [InvVar] at h ⊢
  have h1 : (errTransform msg x).status = VStatus.Error := rfl
  rw [h1, if_neg (fun hc => VStatus.noConfusion hc)]
  show x.inFlight - 1 = 0
  rw [h]
  by_cases hl : x.status = .Loading
  · rw [if_pos hl]
  · rw [if_neg hl]

theorem InvVar_setValTransform {x : SVar} (v t : String) (h : InvVar x) :
    InvVar (setValTransform v t x) := by
  rw [InvVar] at h ⊢
  have h1 : (setValTransform v t x).status = VStatus.Resolved := rfl
  rw [h1, if_neg (fun hc => VStatus.noConfusion hc)]
  show (if x.status = .Loading then x.inFlight - 1 else x.inFlight) = 0
  by_cases hl : x.status = .Loading
  · rw [if_pos hl, h, if_pos hl]
  · rw [if_neg hl, h, if_neg hl]

theorem InvVar_startTransform {x : SVar} (vs : List SVar)
    (hnl : x.status ≠ VStatus.Loading) (h : InvVar x) : InvVar (startTransform vs x) := by
  rw [InvVar] at h ⊢
  have h1 : (startTransform vs x).status = VStatus.Loading := rfl
  rw [h1, if_pos rfl]
  show x.inFlight + 1 = 1
  rw [h, if_neg hnl]

theorem AllInv_updateVar {f : SVar → SVar} (hP : ∀ v, InvVar v → InvVar (f v))
    {vs : List SVar} {n : String} (hinv : AllInv vs) : AllInv (updateVar vs n f) := by
  intro w hw
  rcases mem_updateVar hw with ⟨v, hv, he⟩
  subst he
  by_cases hn : v.name = n
  · rw [if_pos hn]
    exact hP v (hinv v hv)
  · rw [if_neg hn]
    exact hinv v hv

theorem AllInv_startUpdate {vs : List SVar} {n : String} {w : SVar}
    (hnd : (varNames vs).Nodup) (hw : lookupVar vs n = some w)
    (hnl : w.status ≠ VStatus.Loading) (hinv : AllInv vs) : AllInv (startUpdate vs n) := by
  intro u hu
  rcases mem_updateVar hu with ⟨v, hv, he⟩
  subst he
  by_cases hn : v.name = n
  · rw [if_pos hn]
    have hvw : v = w := by
      have h1 := lookupVar_of_mem_nodup hnd hv
      rw [hn, hw] at h1
      cases h1
      rfl
    subst hvw
    exact InvVar_startTransform vs hnl (hinv v hv)
  · rw [if_neg hn]
    exact hinv v hv

theorem AllInv_startGuarded {ok : VStatus → Bool} (hok : ok VStatus.Loading = false)
    (g : Graph) (pending : List String) {vs : List SVar} (n : String)
    (hnd : (varNames vs).Nodup) (hinv : AllInv vs) :
    AllInv (startGuarded ok g pending vs n) := by
  rcases startGuarded_shape hok g pending vs n with h | ⟨w, hw, hnl, _, h⟩
  · rw [h]; exact hinv
  · rw [h]; exact AllInv_startUpdate hnd hw hnl hinv

theorem AllInv_foldl_startGuarded {ok : VStatus → Bool} (hok : ok VStatus.Loading = false)
    (g : Graph) (pending : List String) :
    ∀ (l : List String) (vs : List SVar), (varNames vs).Nodup → AllInv vs →
      AllInv (l.foldl (startGuarded ok g pending) vs) := by
  intro l
  induction l with
  | nil => intro vs _ hinv; exact hinv
  | cons n l ih =>
    intro vs hnd hinv
    rw [List.foldl_cons]
    have hnd' : (varNames (startGuarded ok g pending vs n)).Nodup := by
      rw [stepShape_varNames (startGuarded_shape hok g pending)]
      exact hnd
    exact ih _ hnd' (AllInv_startGuarded hok g pending n hnd hinv)

theorem AllInv_foldl_cancel :
    ∀ (l : List String) (vs : List SVar), AllInv vs →
      AllInv (l.foldl cancelIfLoading vs) := by
  intro l
  induction l with
  | nil => intro vs hinv; exact hinv
  | cons n l ih =>
    intro vs hinv
    rw [List.foldl_cons]
    exact ih _ (AllInv_updateVar (fun v => InvVar_cancelTransform) hinv)

/-! ### Names, queries and the graph are stable across scheduler steps -/

def sig (vs : List SVar) : List (String × String) := vs.map (fun v => (v.name, v.query))

theorem varNames_eq_sig (vs : List SVar) : varNames vs = (sig vs).map Prod.fst := by
  rw [varNames, sig, List.map_map]
  rfl

theorem buildGraph_congr : ∀ {vs vs' : List SVar}, sig vs = sig vs' →
    buildGraph vs = buildGraph vs' := by
  have key : ∀ (K : List String) (a b : List SVar), sig a = sig b →
      a.map (fun v => (v.name, (extractRefs (K.erase v.name) v.query).dedup)) =
      b.map (fun v => (v.name, (extractRefs (K.erase v.name) v.query).dedup)) := by
    intro K a
    induction a with
    | nil =>
      intro b hb
      cases b with
      | nil => rfl
      | cons w b => exact absurd hb (by simp [sig])
    | cons v a ih =>
      intro b hb
      cases b with
      | nil => exact absurd hb (by simp [sig])
      | cons w b =>
        rw [sig, List.map_cons, sig, List.map_cons] at hb
        injection hb with h1 h2
        injection h1 with hname hquery
        rw [List.map_cons, List.map_cons, hname, hquery, ih b h2]
  intro vs vs' h
  have hn : varNames vs = varNames vs' := by
    rw [varNames_eq_sig, varNames_eq_sig, h]
  rw [buildGraph, buildGraph, ← hn]
  exact key _ _ _ h

theorem sig_updateVar (f : SVar → SVar)
    (hf : ∀ v, ((f v).name, (f v).query) = (v.name, v.query)) :
    ∀ (vs : List SVar) (n : String), sig (updateVar vs n f) = sig vs := by
  intro vs n
  induction vs with
  | nil => rfl
  | cons v vs ih =>
    simp only [updateVar, sig, List.map_cons]
    by_cases hv : v.name = n
    · rw [if_pos hv, hf]
      exact congrArg _ ih
    · rw [if_neg hv]
      exact congrArg _ ih

theorem cancelTransform_nq (v : SVar) :
    ((cancelTransform v).name, (cancelTransform v).query) = (v.name, v.query) := by
  rw [cancelTransform]
  by_cases h : v.status = .Loading
  · rw [if_pos h]; rfl
  · rw [if_neg h]

theorem sig_startUpdate (vs : List SVar) (n : String) : sig (startUpdate vs n) = sig vs := by
  rw [startUpdate, sig_updateVar (startTransform vs) (fun _ => rfl)]

theorem sig_cancelIfLoading (vs : List SVar) (n : String) :
    sig (cancelIfLoading vs n) = sig vs := by
  rw [cancelIfLoading, sig_updateVar cancelTransform cancelTransform_nq]

theorem sig_stepShape {g : Graph} {pending : List String}
    {gstep : List SVar → String → List SVar} (hs : StepShape g pending gstep)
    (vs : List SVar) (n : String) : sig (gstep vs n) = sig vs := by
  rcases hs vs n with h | ⟨_, _, _, _, h⟩
  · rw [h]
  · rw [h, sig_startUpdate]

theorem sig_foldl_stepShape {g : Graph} {pending : List String}
    {gstep : List SVar → String → List SVar} (hs : StepShape g pending gstep) :
    ∀ (l : List String) (vs : List SVar), sig (l.foldl gstep vs) = sig vs := by
  intro l
  induction l with
  | nil => intro vs; rfl
  | cons n l ih =>
    intro vs
    rw [List.foldl_cons, ih, sig_stepShape hs]

theorem sig_foldl_cancel :
    ∀ (l : List String) (vs : List SVar), sig (l.foldl cancelIfLoading vs) = sig vs := by
  intro l
  induction l with
  | nil => intro vs; rfl
  | cons n l ih =>
    intro vs
    rw [List.foldl_cons, ih, sig_cancelIfLoading]

theorem sig_cascadeFrom (g : Graph) (vs : List SVar) (n : String) :
    sig (cascadeFrom g vs n) = sig vs := by
  rw [cascadeFrom]
  rw [sig_foldl_stepShape (startGuarded_shape rfl g (dependentsOf g n)), sig_foldl_cancel]

theorem sig_failCascade (g : Graph) (vs : List SVar) (n : String) :
    sig (failCascade g vs n) = sig vs := by
  rw [failCascade]
  rw [sig_foldl_stepShape (startGuarded_shape rfl g (dependentsOf g n))]

theorem sig_map_cancel (vs : List SVar) : sig (vs.map cancelTransform) = sig vs := by
  rw [sig, sig, List.map_map]
  apply List.map_congr_left
  intro v _
  exact cancelTransform_nq v

/-! ### Event-level preservation lemmas -/

theorem AllInv_cascadeFrom {g : Graph} {vs : List SVar} {n : String}
    (hnd : (varNames vs).Nodup) (hinv : AllInv vs) : AllInv (cascadeFrom g vs n) := by
  rw [cascadeFrom]
  have h1 : AllInv ((dependentsOf g n).foldl cancelIfLoading vs) :=
    AllInv_foldl_cancel _ _ hinv
  have h2 : (varNames ((dependentsOf g n).foldl cancelIfLoading vs)).Nodup := by
    rw [foldl_cancel_varNames]
    exact hnd
  exact AllInv_foldl_startGuarded rfl g (dependentsOf g n) _ _ h2 h1

theorem AllInv_failCascade {g : Graph} {vs : List SVar} {n : String}
    (hnd : (varNames vs).Nodup) (hinv : AllInv vs) : AllInv (failCascade g vs n) := by
  rw [failCascade]
  exact AllInv_foldl_startGuarded rfl g (dependentsOf g n) _ _ hnd hinv

theorem sig_completeUpdate (s : SetState) (n v t : String) :
    sig (completeUpdate s n v t).vars = sig s.vars := by
  cases hl : lookupVar s.vars n with
  | none => simp only [completeUpdate, hl]
  | some var =>
    simp only [completeUpdate, hl]
    by_cases hld : var.status = VStatus.Loading
    · rw [if_pos hld]
      by_cases hv : var.value = v ∧ var.text = t
      · rw [if_pos hv]
        exact sig_updateVar (resolveTransform v t) (fun _ => rfl) s.vars n
      · rw [if_neg hv]
        show sig (cascadeFrom (activeGraph s) (updateVar s.vars n (resolveTransform v t)) n) =
          sig s.vars
        rw [sig_cascadeFrom, sig_updateVar (resolveTransform v t) (fun _ => rfl)]
    · rw [if_neg hld]

theorem sig_failUpdate (s : SetState) (n msg : String) :
    sig (failUpdate s n msg).vars = sig s.vars := by
  cases hl : lookupVar s.vars n with
  | none => simp only [failUpdate, hl]
  | some var =>
    simp only [failUpdate, hl]
    by_cases hld : var.status = VStatus.Loading
    · rw [if_pos hld]
      show sig (failCascade (activeGraph s) (updateVar s.vars n (errTransform msg)) n) =
        sig s.vars
      rw [sig_failCascade, sig_updateVar (errTransform msg) (fun _ => rfl)]
    · rw [if_neg hld]

theorem sig_setValueDirectly (s : SetState) (n v t : String) :
    sig (setValueDirectly s n v t).vars = sig s.vars := by
  cases hl : lookupVar s.vars n with
  | none => simp only [setValueDirectly, hl]
  | some var =>
    simp only [setValueDirectly, hl]
    by_cases hv : var.value = v ∧ var.text = t
    · rw [if_pos hv]
      exact sig_updateVar (setValTransform v t) (fun _ => rfl) s.vars n
    · rw [if_neg hv]
      show sig (cascadeFrom (activeGraph s) (updateVar s.vars n (setValTransform v t)) n) =
        sig s.vars
      rw [sig_cascadeFrom, sig_updateVar (setValTransform v t) (fun _ => rfl)]

theorem activate_eq_ok {s : SetState} (hac : isAcyclic (buildGraph s.vars) = true) :
    activate s = Except.ok
      { vars := (varNames s.vars).foldl (startGuarded okIdle (buildGraph s.vars) []) s.vars,
        graph := some (buildGraph s.vars) } := by
  simp only [activate]
  rw [if_pos hac]

theorem activate_eq_error {s : SetState} (hac : ¬ isAcyclic (buildGraph s.vars) = true) :
    activate s = Except.error ActivationError.CycleDetected := by
  simp only [activate]
  rw [if_neg hac]

theorem step_sig (s : SetState) (e : Event) : sig (step s e).vars = sig s.vars := by
  cases e with
  | activate =>
    by_cases hac : isAcyclic (buildGraph s.vars) = true
    · rw [step, activate_eq_ok hac]
      exact sig_foldl_stepShape (startGuarded_shape rfl _ _) _ _
    · rw [step, activate_eq_error hac]
  | deactivate =>
    show sig (s.vars.map cancelTransform) = sig s.vars
    exact sig_map_cancel s.vars
  | complete n v t => exact sig_completeUpdate s n v t
  | fail n msg => exact sig_failUpdate s n msg
  | setValue n v t => exact sig_setValueDirectly s n v t

theorem step_varNames (s : SetState) (e : Event) :
    varNames (step s e).vars = varNames s.vars := by
  rw [varNames_eq_sig, varNames_eq_sig, step_sig]

theorem buildGraph_step (s : SetState) (e : Event) :
    buildGraph (step s e).vars = buildGraph s.vars :=
  buildGraph_congr (step_sig s e)

/-- The graph stored in the state, when present, is the one built from the
current templates. -/
def GraphOK (s : SetState) : Prop :=
  s.graph = none ∨ s.graph = some (buildGraph s.vars)

theorem graph_completeUpdate (s : SetState) (n v t : String) :
    (completeUpdate s n v t).graph = s.graph := by
  cases hl : lookupVar s.vars n with
  | none => simp only [completeUpdate, hl]
  | some var =>
    simp only [completeUpdate, hl]
    by_cases hld : var.status = VStatus.Loading
    · rw [if_pos hld]
      by_cases hv : var.value = v ∧ var.text = t
      · rw [if_pos hv]
      · rw [if_neg hv]
    · rw [if_neg hld]

theorem graph_failUpdate (s : SetState) (n msg : String) :
    (failUpdate s n msg).graph = s.graph := by
  cases hl : lookupVar s.vars n with
  | none => simp only [failUpdate, hl]
  | some var =>
    simp only [failUpdate, hl]
    by_cases hld : var.status = VStatus.Loading
    · rw [if_pos hld]
    · rw [if_neg hld]

theorem graph_setValueDirectly (s : SetState) (n v t : String) :
    (setValueDirectly s n v t).graph = s.graph := by
  cases hl : lookupVar s.vars n with
  | none => simp only [setValueDirectly, hl]
  | some var =>
    simp only [setValueDirectly, hl]
    by_cases hv : var.value = v ∧ var.text = t
    · rw [if_pos hv]
    · rw [if_neg hv]

theorem graphOK_step {s : SetState} (h : GraphOK s) (e : Event) : GraphOK (step s e) := by
  cases e with
  | activate =>
    by_cases hac : isAcyclic (buildGraph s.vars) = true
    · right
      rw [step, activate_eq_ok hac]
      show some (buildGraph s.vars) = some (buildGraph _)
      rw [buildGraph_congr (sig_foldl_stepShape (startGuarded_shape rfl _ _) _ _)]
    · rw [step, activate_eq_error hac]
      exact h
  | deactivate => left; rfl
  | complete n v t =>
    rcases h with h | h
    · left
      show (completeUpdate s n v t).graph = none
      rw [graph_completeUpdate, h]
    · right
      show (completeUpdate s n v t).graph = some (buildGraph (completeUpdate s n v t).vars)
      rw [graph_completeUpdate, h, buildGraph_congr (sig_completeUpdate s n v t)]
  | fail n msg =>
    rcases h with h | h
    · left
      show (failUpdate s n msg).graph = none
      rw [graph_failUpdate, h]
    · right
      show (failUpdate s n msg).graph = some (buildGraph (failUpdate s n msg).vars)
      rw [graph_failUpdate, h, buildGraph_congr (sig_failUpdate s n msg)]
  | setValue n v t =>
    rcases h with h | h
    · left
      show (setValueDirectly s n v t).graph = none
      rw [graph_setValueDirectly, h]
    · right
      show (setValueDirectly s n v t).graph = some (buildGraph (setValueDirectly s n v t).vars)
      rw [graph_setValueDirectly, h, buildGraph_congr (sig_setValueDirectly s n v t)]

theorem step_AllInv {s : SetState} (hnd : (varNames s.vars).Nodup)
    (hinv : AllInv s.vars) (e : Event) : AllInv (step s e).vars := by
  cases e with
  | activate =>
    by_cases hac : isAcyclic (buildGraph s.vars) = true
    · rw [step, activate_eq_ok hac]
      exact AllInv_foldl_startGuarded rfl _ _ _ _ hnd hinv
    · rw [step, activate_eq_error hac]
      exact hinv
  | deactivate =>
    intro u hu
    rcases List.mem_map.mp hu with ⟨v, hv, he⟩
    exact he ▸ InvVar_cancelTransform (hinv v hv)
  | complete n v t =>
    cases hl : lookupVar s.vars n with
    | none => simp only [step, completeUpdate, hl]; exact hinv
    | some var =>
      simp only [step, completeUpdate, hl]
      by_cases hld : var.status = VStatus.Loading
      · rw [if_pos hld]
        have h1 : AllInv (updateVar s.vars n (resolveTransform v t)) :=
          AllInv_updateVar (fun x => InvVar_resolveTransform v t) hinv
        have h2 : (varNames (updateVar s.vars n (resolveTransform v t))).Nodup := by
          rw [varNames_updateVar (resolveTransform v t) (fun _ => rfl)]
          exact hnd
        by_cases hv : var.value = v ∧ var.text = t
        · rw [if_pos hv]
          exact h1
        · rw [if_neg hv]
          exact AllInv_cascadeFrom h2 h1
      · rw [if_neg hld]
        exact hinv
  | fail n msg =>
    cases hl : lookupVar s.vars n with
    | none => simp only [step, failUpdate, hl]; exact hinv
    | some var =>
      simp only [step, failUpdate, hl]
      by_cases hld : var.status = VStatus.Loading
      · rw [if_pos hld]
        have h1 : AllInv (updateVar s.vars n (errTransform msg)) :=
          AllInv_updateVar (fun x => InvVar_errTransform msg) hinv
        have h2 : (varNames (updateVar s.vars n (errTransform msg))).Nodup := by
          rw [varNames_updateVar (errTransform msg) (fun _ => rfl)]
          exact hnd
        exact AllInv_failCascade h2 h1
      · rw [if_neg hld]
        exact hinv
  | setValue n v t =>
    cases hl : lookupVar s.vars n with
    | none => simp only [step, setValueDirectly, hl]; exact hinv
    | some var =>
      simp only [step, setValueDirectly, hl]
      have h1 : AllInv (updateVar s.vars n (setValTransform v t)) :=
        AllInv_updateVar (fun x => InvVar_setValTransform v t) hinv
      have h2 : (varNames (updateVar s.vars n (setValTransform v t))).Nodup := by
        rw [varNames_updateVar (setValTransform v t) (fun _ => rfl)]
        exact hnd
      by_cases hv : var.value = v ∧ var.text = t
      · rw [if_pos hv]
        exact h1
      · rw [if_neg hv]
        exact AllInv_cascadeFrom h2 h1

/-! ### Newly-loading variables were ready: the step-level lemma -/

theorem lookupVar_map (f : SVar → SVar) (hf : ∀ v, (f v).name = v.name) :
    ∀ (vs : List SVar) (m : String), lookupVar (vs.map f) m = (lookupVar vs m).map f := by
  intro vs m
  induction vs with
  | nil => rfl
  | cons v vs ih =>
    rw [List.map_cons, lookupVar, lookupVar, hf]
    by_cases hv : v.name = m
    · rw [if_pos hv, if_pos hv]
      rfl
    · rw [if_neg hv, if_neg hv]
      exact ih

theorem activeGraph_eq {s : SetState} {G : Graph} (h : s.graph = some G) :
    activeGraph s = G := by
  rw [activeGraph, h]
  rfl

theorem activeGraph_none {s : SetState} (h : s.graph = none) : activeGraph s = [] := by
  rw [activeGraph, h]
  rfl

theorem cascadeFrom_lookup_not_dependent {G : Graph} {vars1 : List SVar} {n m : String}
    (hm : m ∉ dependentsOf G n) :
    lookupVar (cascadeFrom G vars1 n) m = lookupVar vars1 m := by
  simp only [cascadeFrom]
  rw [foldl_stepShape_lookup_not_mem (startGuarded_shape rfl G _) _ _ _ hm,
    foldl_cancel_lookup_not_mem _ _ _ hm]

theorem failCascade_lookup_not_dependent {G : Graph} {vars1 : List SVar} {n m : String}
    (hm : m ∉ dependentsOf G n) :
    lookupVar (failCascade G vars1 n) m = lookupVar vars1 m := by
  simp only [failCascade]
  rw [foldl_stepShape_lookup_not_mem (startGuarded_shape rfl G _) _ _ _ hm]

theorem cascadeFrom_newLoading {G : Graph} {vars1 : List SVar} {n d : String} {w w' : SVar}
    (hnd1 : (varNames vars1).Nodup) (hds : d ∉ depsOf G d)
    (hw : lookupVar vars1 d = some w) (hnl : w.status ≠ VStatus.Loading)
    (hw' : lookupVar (cascadeFrom G vars1 n) d = some w') (hl' : w'.status = VStatus.Loading) :
    ∀ dep ∈ depsOf G d,
      ∃ u, lookupVar (cascadeFrom G vars1 n) dep = some u ∧ settledForReadiness u = true := by
  simp only [cascadeFrom] at hw' ⊢
  rcases @foldl_cancel_pred (fun v => v.status ≠ VStatus.Loading)
    (fun v _ => cancelTransform_not_loading v) (dependentsOf G n) vars1 d w hw hnl with
    ⟨wc, hwc, hnlc⟩
  have hndc : (varNames ((dependentsOf G n).foldl cancelIfLoading vars1)).Nodup := by
    rw [foldl_cancel_varNames]
    exact hnd1
  exact foldl_startGuarded_newLoading rfl (dependentsOf G n) (Or.inl (fun x hx => hx))
    _ hndc d hds wc w' hwc hnlc hw' hl'

theorem failCascade_newLoading {G : Graph} {vars1 : List SVar} {n d : String} {w w' : SVar}
    (hnd1 : (varNames vars1).Nodup) (hds : d ∉ depsOf G d)
    (hw : lookupVar vars1 d = some w) (hnl : w.status ≠ VStatus.Loading)
    (hw' : lookupVar (failCascade G vars1 n) d = some w') (hl' : w'.status = VStatus.Loading) :
    ∀ dep ∈ depsOf G d,
      ∃ u, lookupVar (failCascade G vars1 n) dep = some u ∧ settledForReadiness u = true := by
  simp only [failCascade] at hw' ⊢
  exact foldl_startGuarded_newLoading rfl (dependentsOf G n) (Or.inl (fun x hx => hx))
    _ hnd1 d hds w w' hw hnl hw' hl'

/-- Central safety lemma: whenever a scheduler step takes a variable from a
non-loading status into `Loading` (i.e. its update is started), every
direct dependency of that variable is settled in the resulting state. -/
theorem step_newLoading_deps_settled
    {s : SetState} (hnd : (varNames s.vars).Nodup) (hg : GraphOK s)
    (e : Event) {d : String} {w w' : SVar}
    (hw : lookupVar s.vars d = some w) (hnl : w.status ≠ VStatus.Loading)
    (hw' : lookupVar (step s e).vars d = some w') (hl' : w'.status = VStatus.Loading) :
    ∀ dep ∈ depsOf (buildGraph s.vars) d,
      ∃ u, lookupVar (step s e).vars dep = some u ∧ settledForReadiness u = true := by
  cases e with
  | activate =>
    by_cases hac : isAcyclic (buildGraph s.vars) = true
    · have hstep : (step s Event.activate).vars =
          (varNames s.vars).foldl (startGuarded okIdle (buildGraph s.vars) []) s.vars := by
        rw [step, activate_eq_ok hac]
      rw [hstep] at hw' ⊢
      exact foldl_startGuarded_newLoading rfl (varNames s.vars)
        (Or.inr okIdle_blocks_settled) s.vars hnd d (no_self_dep hnd) w w' hw hnl hw' hl'
    · have hstep : step s Event.activate = s := by
        rw [step, activate_eq_error hac]
      rw [hstep] at hw'
      rw [hw] at hw'
      cases hw'
      exact absurd hl' hnl
  | deactivate =>
    have hstep : (step s Event.deactivate).vars = s.vars.map cancelTransform := rfl
    rw [hstep, lookupVar_map cancelTransform cancelTransform_name, hw] at hw'
    cases hw'
    exact absurd hl' (cancelTransform_not_loading w)
  | complete n v t =>
    have hstep : (step s (Event.complete n v t)).vars = (completeUpdate s n v t).vars := by
      rw [step]
    rw [hstep] at hw' ⊢
    cases hln : lookupVar s.vars n with
    | none =>
      have hcu : (completeUpdate s n v t).vars = s.vars := by
        simp only [completeUpdate, hln]
      rw [hcu] at hw'
      rw [hw] at hw'
      cases hw'
      exact absurd hl' hnl
    | some var =>
      by_cases hld : var.status = VStatus.Loading
      · by_cases hveq : var.value = v ∧ var.text = t
        · have hcu : (completeUpdate s n v t).vars =
              updateVar s.vars n (resolveTransform v t) := by
            simp only [completeUpdate, hln]
            rw [if_pos hld, if_pos hveq]
          rw [hcu] at hw'
          by_cases hdn : d = n
          · subst hdn
            rw [lookupVar_updateVar_self (resolveTransform v t) (fun _ => rfl), hw] at hw'
            cases hw'
            exact absurd hl' (fun hc => VStatus.noConfusion hc)
          · rw [lookupVar_updateVar_ne (resolveTransform v t) (fun _ => rfl) hdn, hw] at hw'
            cases hw'
            exact absurd hl' hnl
        · have hcu : (completeUpdate s n v t).vars =
              cascadeFrom (activeGraph s) (updateVar s.vars n (resolveTransform v t)) n := by
            simp only [completeUpdate, hln]
            rw [if_pos hld, if_neg hveq]
          rw [hcu] at hw' ⊢
          rcases hg with hgn | hgs
          · rw [activeGraph_none hgn] at hw' ⊢
            have hcf : cascadeFrom ([] : Graph)
                (updateVar s.vars n (resolveTransform v t)) n =
                updateVar s.vars n (resolveTransform v t) := rfl
            rw [hcf] at hw' ⊢
            by_cases hdn : d = n
            · subst hdn
              rw [lookupVar_updateVar_self (resolveTransform v t) (fun _ => rfl), hw] at hw'
              cases hw'
              exact absurd hl' (fun hc => VStatus.noConfusion hc)
            · rw [lookupVar_updateVar_ne (resolveTransform v t) (fun _ => rfl) hdn, hw] at hw'
              cases hw'
              exact absurd hl' hnl
          · rw [activeGraph_eq hgs] at hw' ⊢
            by_cases hdn : d = n
            · subst hdn
              rw [cascadeFrom_lookup_not_dependent (no_self_dependent hnd),
                lookupVar_updateVar_self (resolveTransform v t) (fun _ => rfl), hw] at hw'
              cases hw'
              exact absurd hl' (fun hc => VStatus.noConfusion hc)
            · have hw1 : lookupVar (updateVar s.vars n (resolveTransform v t)) d = some w := by
                rw [lookupVar_updateVar_ne (resolveTransform v t) (fun _ => rfl) hdn]
                exact hw
              have hnd1 : (varNames (updateVar s.vars n (resolveTransform v t))).Nodup := by
                rw [varNames_updateVar (resolveTransform v t) (fun _ => rfl)]
                exact hnd
              exact cascadeFrom_newLoading hnd1 (no_self_dep hnd) hw1 hnl hw' hl'
      · have hcu : (completeUpdate s n v t).vars = s.vars := by
          simp only [completeUpdate, hln]
          rw [if_neg hld]
        rw [hcu] at hw'
        rw [hw] at hw'
        cases hw'
        exact absurd hl' hnl
  | fail n msg =>
    have hstep : (step s (Event.fail n msg)).vars = (failUpdate s n msg).vars := by
      rw [step]
    rw [hstep] at hw' ⊢
    cases hln : lookupVar s.vars n with
    | none =>
      have hcu : (failUpdate s n msg).vars = s.vars := by
        simp only [failUpdate, hln]
      rw [hcu] at hw'
      rw [hw] at hw'
      cases hw'
      exact absurd hl' hnl
    | some var =>
      by_cases hld : var.status = VStatus.Loading
      · have hcu : (failUpdate s n msg).vars =
            failCascade (activeGraph s) (updateVar s.vars n (errTransform msg)) n := by
          simp only [failUpdate, hln]
          rw [if_pos hld]
        rw [hcu] at hw' ⊢
        rcases hg with hgn | hgs
        · rw [activeGraph_none hgn] at hw' ⊢
          have hcf : failCascade ([] : Graph) (updateVar s.vars n (errTransform msg)) n =
              updateVar s.vars n (errTransform msg) := rfl
          rw [hcf] at hw' ⊢
          by_cases hdn : d = n
          · subst hdn
            rw [lookupVar_updateVar_self (errTransform msg) (fun _ => rfl), hw] at hw'
            cases hw'
            exact absurd hl' (fun hc => VStatus.noConfusion hc)
          · rw [lookupVar_updateVar_ne (errTransform msg) (fun _ => rfl) hdn, hw] at hw'
            cases hw'
            exact absurd hl' hnl
        · rw [activeGraph_eq hgs] at hw' ⊢
          by_cases hdn : d = n
          · subst hdn
            rw [failCascade_lookup_not_dependent (no_self_dependent hnd),
              lookupVar_updateVar_self (errTransform msg) (fun _ => rfl), hw] at hw'
            cases hw'
            exact absurd hl' (fun hc => VStatus.noConfusion hc)
          · have hw1 : lookupVar (updateVar s.vars n (errTransform msg)) d = some w := by
              rw [lookupVar_updateVar_ne (errTransform msg) (fun _ => rfl) hdn]
              exact hw
            have hnd1 : (varNames (updateVar s.vars n (errTransform msg))).Nodup := by
              rw [varNames_updateVar (errTransform msg) (fun _ => rfl)]
              exact hnd
            exact failCascade_newLoading hnd1 (no_self_dep hnd) hw1 hnl hw' hl'
      · have hcu : (failUpdate s n msg).vars = s.vars := by
          simp only [failUpdate, hln]
          rw [if_neg hld]
        rw [hcu] at hw'
        rw [hw] at hw'
        cases hw'
        exact absurd hl' hnl
  | setValue n v t =>
    have hstep : (step s (Event.setValue n v t)).vars = (setValueDirectly s n v t).vars := by
      rw [step]
    rw [hstep] at hw' ⊢
    cases hln : lookupVar s.vars n with
    | none =>
      have hcu : (setValueDirectly s n v t).vars = s.vars := by
        simp only [setValueDirectly, hln]
      rw [hcu] at hw'
      rw [hw] at hw'
      cases hw'
      exact absurd hl' hnl
    | some var =>
      by_cases hveq : var.value = v ∧ var.text = t
      · have hcu : (setValueDirectly s n v t).vars =
            updateVar s.vars n (setValTransform v t) := by
          simp only [setValueDirectly, hln]
          rw [if_pos hveq]
        rw [hcu] at hw'
        by_cases hdn : d = n
        · subst hdn
          rw [lookupVar_updateVar_self (setValTransform v t) (fun _ => rfl), hw] at hw'
          cases hw'
          exact absurd hl' (fun hc => VStatus.noConfusion hc)
        · rw [lookupVar_updateVar_ne (setValTransform v t) (fun _ => rfl) hdn, hw] at hw'
          cases hw'
          exact absurd hl' hnl
      · have hcu : (setValueDirectly s n v t).vars =
            cascadeFrom (activeGraph s) (updateVar s.vars n (setValTransform v t)) n := by
          simp only [setValueDirectly, hln]
          rw [if_neg hveq]
        rw [hcu] at hw' ⊢
        rcases hg with hgn | hgs
        · rw [activeGraph_none hgn] at hw' ⊢
          have hcf : cascadeFrom ([] : Graph)
              (updateVar s.vars n (setValTransform v t)) n =
              updateVar s.vars n (setValTransform v t) := rfl
          rw [hcf] at hw' ⊢
          by_cases hdn : d = n
          · subst hdn
            rw [lookupVar_updateVar_self (setValTransform v t) (fun _ => rfl), hw] at hw'
            cases hw'
            exact absurd hl' (fun hc => VStatus.noConfusion hc)
          · rw [lookupVar_updateVar_ne (setValTransform v t) (fun _ => rfl) hdn, hw] at hw'
            cases hw'
            exact absurd hl' hnl
        · rw [activeGraph_eq hgs] at hw' ⊢
          by_cases hdn : d = n
          · subst hdn
            rw [cascadeFrom_lookup_not_dependent (no_self_dependent hnd),
              lookupVar_updateVar_self (setValTransform v t) (fun _ => rfl), hw] at hw'
            cases hw'
            exact absurd hl' (fun hc => VStatus.noConfusion hc)
          · have hw1 : lookupVar (updateVar s.vars n (setValTransform v t)) d = some w := by
              rw [lookupVar_updateVar_ne (setValTransform v t) (fun _ => rfl) hdn]
              exact hw
            have hnd1 : (varNames (updateVar s.vars n (setValTransform v t))).Nodup := by
              rw [varNames_updateVar (setValTransform v t) (fun _ => rfl)]
              exact hnd
            exact cascadeFrom_newLoading hnd1 (no_self_dep hnd) hw1 hnl hw' hl'

end VarSched

namespace VarSched

/-! ### Observations at the public interface, and concrete scenarios -/

/-- The status of the named variable, as observable from outside. -/
def statusOf (s : SetState) (n : String) : Option VStatus :=
  (lookupVar s.vars n).map (fun v => v.status)

/-- The `loading` flag of the named variable: `some none` means the
variable exists but has never exposed a loading flag. -/
def loadingOf (s : SetState) (n : String) : Option (Option Bool) :=
  (lookupVar s.vars n).map (fun v => v.loading)

/-- The current value of the named variable. -/
def valueOf (s : SetState) (n : String) : Option String :=
  (lookupVar s.vars n).map (fun v => v.value)

/-- The last query issued to the executor for the named variable. -/
def issuedOf (s : SetState) (n : String) : Option (Option String) :=
  (lookupVar s.vars n).map (fun v => v.issuedQuery)

/-- The number of outstanding executor requests of the named variable. -/
def inFlightOf (s : SetState) (n : String) : Option Nat :=
  (lookupVar s.vars n).map (fun v => v.inFlight)

/-- The variable set of the first test scenario: A with no dependencies,
B depending on A, C depending on A and B, declared in order C, B, A. -/
def abcSet : SetState := initSet [("C", "A.$A.$B.*"), ("B", "A.$A"), ("A", "A.*")]

/-- The variable set of the value-change test scenario (B's template ends
in `.*` there). -/
def abc2Set : SetState := initSet [("C", "A.$A.$B.*"), ("B", "A.$A.*"), ("A", "A.*")]

/-- A single zero-dependency variable. -/
def oneSet : SetState := initSet [("A", "A.*")]

/-- Two variables referencing each other: the reference graph has no
topological order. -/
def cycSet : SetState := initSet [("A", "$B.*"), ("B", "$A.*")]

/-- A three-variable chain A ← B ← C used to exercise error settling. -/
def chainSet : SetState := initSet [("A", "A.*"), ("B", "B.$A"), ("C", "C.$B")]

/-- A run of the chain scenario that leaves B in `Error` after B had
resolved once, and C cancelled back to `Idle` by a deactivation. -/
def chainEvents : List Event :=
  [Event.activate, Event.complete "A" "v1" "v1", Event.complete "B" "w1" "w1",
   Event.complete "C" "u1" "u1", Event.setValue "A" "v2" "v2",
   Event.complete "B" "w2" "w2", Event.setValue "A" "v3" "v3",
   Event.fail "B" "boom", Event.deactivate]

/-- C3: for the graph A (no dependencies), B (depends on A), C (depends on
A and B): activation puts A in `Loading` with B and C not loading;
completing A with a changed value puts B in `Loading` while C is still not
loading; completing B with a changed value puts C in `Loading`; and the
query issued for C is its template interpolated with the latest values of
A and B. -/
theorem c3_scenario_dependency_order :
    (loadingOf (run abcSet [Event.activate]) "A" = some (some true) ∧
     loadingOf (run abcSet [Event.activate]) "B" = some none ∧
     loadingOf (run abcSet [Event.activate]) "C" = some none) ∧
    (valueOf (run abcSet [Event.activate, Event.complete "A" "AA" "AA"]) "A" = some "AA" ∧
     issuedOf (run abcSet [Event.activate, Event.complete "A" "AA" "AA"]) "A" =
       some (some "A.*") ∧
     loadingOf (run abcSet [Event.activate, Event.complete "A" "AA" "AA"]) "A" =
       some (some false) ∧
     loadingOf (run abcSet [Event.activate, Event.complete "A" "AA" "AA"]) "B" =
       some (some true) ∧
     loadingOf (run abcSet [Event.activate, Event.complete "A" "AA" "AA"]) "C" = some none) ∧
    (loadingOf (run abcSet [Event.activate, Event.complete "A" "AA" "AA",
       Event.complete "B" "AAA" "AAA"]) "B" = some (some false) ∧
     loadingOf (run abcSet [Event.activate, Event.complete "A" "AA" "AA",
       Event.complete "B" "AAA" "AAA"]) "C" = some (some true) ∧
     issuedOf (run abcSet [Event.activate, Event.complete "A" "AA" "AA",
       Event.complete "B" "AAA" "AAA"]) "C" = some (some "A.AA.AAA.*")) := by
  decide

/-- C10: a variable that has never been started exposes no loading flag at
all (`loading` is absent), whereas a variable whose update has completed
exposes `loading = false`; the two non-loading observations are distinct. -/
theorem c10_loading_flag_distinguishes_never_started :
    loadingOf abcSet "B" = some none ∧
    loadingOf (run abcSet [Event.activate]) "A" = some (some true) ∧
    loadingOf (run abcSet [Event.activate]) "B" = some none ∧
    loadingOf (run abcSet [Event.activate]) "C" = some none ∧
    loadingOf (run abcSet [Event.activate, Event.complete "A" "AA" "AA"]) "A" =
      some (some false) ∧
    (some false : Option Bool) ≠ (none : Option Bool) := by
  decide

/-- C2 counterexample: after the chain run, C is `Idle`; the next
activation invokes `startUpdate` on C (it becomes `Loading`) while its only
direct dependency B has status `Error`, not `Resolved` — B settled through
an error after having resolved once.  So a variable can be started when a
direct dependency is settled but not `Resolved`. -/
theorem c2_counterexample_start_with_errored_dependency :
    statusOf (run chainSet chainEvents) "C" = some VStatus.Idle ∧
    statusOf (run chainSet (chainEvents ++ [Event.activate])) "C" = some VStatus.Loading ∧
    statusOf (run chainSet (chainEvents ++ [Event.activate])) "B" = some VStatus.Error ∧
    depsOf (buildGraph (run chainSet chainEvents).vars) "C" = ["B"] := by
  decide

/-- C8: when the reference graph admits no topological order (the
elimination check fails), graph build fails with `CycleDetected` and the
activation step leaves the state untouched: no variable's update is
started. -/
theorem c8_cycle_fails_activation_entirely (s : SetState)
    (h : isAcyclic (buildGraph s.vars) = false) :
    activate s = Except.error ActivationError.CycleDetected ∧ step s Event.activate = s := by
  have h' : ¬ isAcyclic (buildGraph s.vars) = true := by
    rw [h]
    exact Bool.false_ne_true
  constructor
  · exact activate_eq_error h'
  · rw [step, activate_eq_error h']

theorem c8_cycle_witness :
    isAcyclic (buildGraph cycSet.vars) = false ∧
    activate cycSet = Except.error ActivationError.CycleDetected ∧
    step cycSet Event.activate = cycSet :=
  ⟨by decide, (c8_cycle_fails_activation_entirely cycSet (by decide)).1,
    (c8_cycle_fails_activation_entirely cycSet (by decide)).2⟩

/-! ### Small status lemmas -/

theorem settled_false_of_idle {v : SVar} (h : v.status = VStatus.Idle) :
    settledForReadiness v = false := by
  rw [settledForReadiness, h]

theorem settled_false_of_loading {v : SVar} (h : v.status = VStatus.Loading) :
    settledForReadiness v = false := by
  rw [settledForReadiness, h]

theorem settled_of_resolved {v : SVar} (h : v.status = VStatus.Resolved) :
    settledForReadiness v = true := by
  rw [settledForReadiness, h]

theorem okRestart_true {st : VStatus} (h : st ≠ VStatus.Loading) : okRestart st = true := by
  cases st with
  | Loading => exact absurd rfl h
  | Idle => rfl
  | Resolved => rfl
  | Error => rfl

theorem startGuarded_lookup_ne {ok : VStatus → Bool} {g : Graph} {p : List String}
    {vs : List SVar} {n m : String} (hnm : n ≠ m) :
    lookupVar (startGuarded ok g p vs n) m = lookupVar vs m := by
  cases hl : lookupVar vs n with
  | none => simp only [startGuarded, hl]
  | some w =>
    simp only [startGuarded, hl]
    by_cases hc : ok w.status = true ∧ isReady g (availableSet p vs) n = true
    · rw [if_pos hc, startUpdate,
        lookupVar_updateVar_ne (startTransform vs) (fun _ => rfl) (fun h => hnm h.symm)]
    · rw [if_neg hc]

theorem startGuarded_id_of_not_ready {ok : VStatus → Bool} {g : Graph} {p : List String}
    {vs : List SVar} {n : String} (h : ¬ isReady g (availableSet p vs) n = true) :
    startGuarded ok g p vs n = vs := by
  cases hl : lookupVar vs n with
  | none => simp only [startGuarded, hl]
  | some w =>
    simp only [startGuarded, hl]
    rw [if_neg (fun hc => h hc.2)]

theorem availableSet_nil {p : List String} {vs : List SVar} (h : resolvedSet vs = []) :
    availableSet p vs = [] := by
  rw [availableSet, h]
  rfl

theorem not_ready_of_deps_nonempty {g : Graph} {d : String} (hne : depsOf g d ≠ []) :
    ¬ isReady g ([] : List String) d = true := by
  intro h
  cases hd : depsOf g d with
  | nil => exact hne hd
  | cons x xs =>
    have hx := isReady_eq_true_iff.mp h x (by rw [hd]; exact List.mem_cons_self _ _)
    exact absurd hx (List.not_mem_nil x)

theorem allUnsettled_startGuarded {ok : VStatus → Bool} {g : Graph} {p : List String}
    {vs : List SVar} (n : String) (hall : ∀ v ∈ vs, settledForReadiness v = false) :
    ∀ v ∈ startGuarded ok g p vs n, settledForReadiness v = false := by
  cases hl : lookupVar vs n with
  | none => simp only [startGuarded, hl]; exact hall
  | some w =>
    simp only [startGuarded, hl]
    by_cases hc : ok w.status = true ∧ isReady g (availableSet p vs) n = true
    · rw [if_pos hc]
      intro u hu
      rcases mem_updateVar hu with ⟨v, hv, he⟩
      subst he
      by_cases hvn : v.name = n
      · rw [if_pos hvn]
        exact settled_false_of_loading rfl
      · rw [if_neg hvn]
        exact hall v hv
    · rw [if_neg hc]
      exact hall

theorem foldl_startGuarded_unready_frame {ok : VStatus → Bool} {g : Graph} {p : List String} :
    ∀ (l : List String) (vs : List SVar),
      (∀ v ∈ vs, settledForReadiness v = false) →
      ∀ (d : String), depsOf g d ≠ [] →
      lookupVar (l.foldl (startGuarded ok g p) vs) d = lookupVar vs d := by
  intro l
  induction l with
  | nil => intro vs _ d _; rfl
  | cons n l ih =>
    intro vs hall d hne
    rw [List.foldl_cons]
    have hres : resolvedSet vs = [] := resolvedSet_eq_nil hall
    have hall' := @allUnsettled_startGuarded ok g p vs n hall
    by_cases hdn : n = d
    · subst hdn
      have hid : startGuarded ok g p vs n = vs := by
        apply startGuarded_id_of_not_ready
        intro hc
        rw [availableSet_nil hres] at hc
        exact not_ready_of_deps_nonempty hne hc
      rw [hid]
      exact ih vs hall n hne
    · rw [ih _ hall' d hne, startGuarded_lookup_ne hdn]

/-- C1: for every acyclic variable graph in the pre-activation state (all
variables `Idle`, names unique), activation succeeds and starts exactly the
zero-dependency variables; every variable with at least one dependency is
left entirely untouched — still `Idle`, with no loading flag and nothing
queued or in flight. -/
theorem c1_activation_starts_exactly_zero_dependency (s : SetState)
    (hnd : (varNames s.vars).Nodup)
    (hidle : ∀ v ∈ s.vars, v.status = VStatus.Idle)
    (hac : isAcyclic (buildGraph s.vars) = true) :
    ∃ s', activate s = Except.ok s' ∧
      ∀ v ∈ s.vars, ∃ v', lookupVar s'.vars v.name = some v' ∧
        (depsOf (buildGraph s.vars) v.name = [] →
          v'.status = VStatus.Loading ∧ v'.loading = some true) ∧
        (depsOf (buildGraph s.vars) v.name ≠ [] → v' = v) := by
  refine ⟨_, activate_eq_ok hac, ?_⟩
  intro v hv
  have hlv : lookupVar s.vars v.name = some v := lookupVar_of_mem_nodup hnd hv
  by_cases hdep : depsOf (buildGraph s.vars) v.name = []
  · rcases foldl_startGuarded_starts okIdle rfl (varNames s.vars) hnd s.vars hnd v.name v hlv
      (by rw [hidle v hv]; rfl) (List.mem_map_of_mem _ hv)
      (fun dep hdepm => absurd hdepm (by rw [hdep]; exact List.not_mem_nil _)) with
      ⟨w, hw, hws, hwl⟩
    exact ⟨w, hw, fun _ => ⟨hws, hwl⟩, fun hne => absurd hdep hne⟩
  · have hunch : lookupVar
        ((varNames s.vars).foldl (startGuarded okIdle (buildGraph s.vars) []) s.vars) v.name =
        lookupVar s.vars v.name :=
      foldl_startGuarded_unready_frame (varNames s.vars) s.vars
        (fun u hu => settled_false_of_idle (hidle u hu)) v.name hdep
    exact ⟨v, by rw [hunch]; exact hlv, fun h => absurd h hdep, fun _ => rfl⟩

theorem c1_activation_witness :
    ((varNames abcSet.vars).Nodup ∧ (∀ v ∈ abcSet.vars, v.status = VStatus.Idle) ∧
      isAcyclic (buildGraph abcSet.vars) = true) ∧
    (∃ s', activate abcSet = Except.ok s' ∧
      ∀ v ∈ abcSet.vars, ∃ v', lookupVar s'.vars v.name = some v' ∧
        (depsOf (buildGraph abcSet.vars) v.name = [] →
          v'.status = VStatus.Loading ∧ v'.loading = some true) ∧
        (depsOf (buildGraph abcSet.vars) v.name ≠ [] → v' = v)) :=
  ⟨⟨by decide, by decide, by decide⟩,
   c1_activation_starts_exactly_zero_dependency abcSet (by decide) (by decide) (by decide)⟩

/-- C5: completing an update whose result equals the previous value and
text never transitions any other variable into `Loading`: every variable
other than the completed one is left untouched, and no variable that was
not loading before is loading afterwards. -/
theorem c5_unchanged_completion_never_cascades {s : SetState} {n v t : String} {var : SVar}
    (hvar : lookupVar s.vars n = some var) (hv : var.value = v) (ht : var.text = t) :
    (∀ m, m ≠ n → lookupVar (completeUpdate s n v t).vars m = lookupVar s.vars m) ∧
    (∀ m w w', lookupVar s.vars m = some w →
      lookupVar (completeUpdate s n v t).vars m = some w' →
      w'.status = VStatus.Loading → w.status = VStatus.Loading) := by
  by_cases hld : var.status = VStatus.Loading
  · have hcu : (completeUpdate s n v t).vars = updateVar s.vars n (resolveTransform v t) := by
      simp only [completeUpdate, hvar]
      rw [if_pos hld, if_pos ⟨hv, ht⟩]
    rw [hcu]
    constructor
    · intro m hm
      rw [lookupVar_updateVar_ne (resolveTransform v t) (fun _ => rfl) hm]
    · intro m w w' hw hw' hl'
      by_cases hm : m = n
      · subst hm
        rw [lookupVar_updateVar_self (resolveTransform v t) (fun _ => rfl), hw] at hw'
        cases hw'
        exact absurd hl' (fun hc => VStatus.noConfusion hc)
      · rw [lookupVar_updateVar_ne (resolveTransform v t) (fun _ => rfl) hm, hw] at hw'
        cases hw'
        exact hl'
  · have hcu : (completeUpdate s n v t).vars = s.vars := by
      simp only [completeUpdate, hvar]
      rw [if_neg hld]
    rw [hcu]
    refine ⟨fun m _ => rfl, fun m w w' hw hw' hl' => ?_⟩
    rw [hw] at hw'
    cases hw'
    exact hl'

/-- The state used to witness C5: in the value-change scenario, after A's
value was set directly, B is loading with its previous value still `AAA`. -/
def c5state : SetState := run abc2Set [Event.activate, Event.complete "A" "AA" "AA",
  Event.complete "B" "AAA" "AAA", Event.complete "C" "CC" "CC", Event.setValue "A" "AB" "AB"]

/-- The concrete variable B in `c5state`. -/
def c5varB : SVar :=
  { name := "B", query := "A.$A.*", value := "AAA", text := "AAA",
    status := VStatus.Loading, loading := some true, issuedQuery := some "A.AB.*",
    errMsg := none, everResolved := true, inFlight := 1 }

theorem c5_unchanged_completion_witness :
    lookupVar c5state.vars "B" = some c5varB ∧ c5varB.value = "AAA" ∧ c5varB.text = "AAA" ∧
    lookupVar (completeUpdate c5state "B" "AAA" "AAA").vars "C" = lookupVar c5state.vars "C" :=
  ⟨by decide, by decide, by decide,
   (@c5_unchanged_completion_never_cascades c5state "B" "AAA" "AAA" c5varB
     (by decide) (by decide) (by decide)).1 "C" (by decide)⟩

/-- C2, amended: a variable is never started before all of its direct
dependencies are settled — whenever a scheduler step takes a variable from
a non-loading status into `Loading`, every direct dependency is `Resolved`
or `Error` after a previous successful resolution in the resulting state
(the original claim demanded status `Resolved`, which the error-settling
rule of the spec's error-handling section refutes). -/
theorem c2_amended_started_only_when_deps_settled
    {s : SetState} (hnd : (varNames s.vars).Nodup) (hg : GraphOK s)
    (e : Event) {d : String} {w w' : SVar}
    (hw : lookupVar s.vars d = some w) (hnl : w.status ≠ VStatus.Loading)
    (hw' : lookupVar (step s e).vars d = some w') (hl' : w'.status = VStatus.Loading) :
    ∀ dep ∈ depsOf (buildGraph s.vars) d,
      ∃ u, lookupVar (step s e).vars dep = some u ∧ settledForReadiness u = true :=
  step_newLoading_deps_settled hnd hg e hw hnl hw' hl'

/-- The state after activating the A, B, C scenario: A loading, B and C
idle. -/
def c2s1 : SetState := run abcSet [Event.activate]

/-- The concrete variable B before A's completion. -/
def c2varB1 : SVar := mkVar "B" "A.$A"

/-- The concrete variable B just after A's completion started it. -/
def c2varB2 : SVar :=
  { name := "B", query := "A.$A", value := "", text := "",
    status := VStatus.Loading, loading := some true, issuedQuery := some "A.AA",
    errMsg := none, everResolved := false, inFlight := 1 }

theorem c2_amended_witness :
    ((varNames c2s1.vars).Nodup ∧ lookupVar c2s1.vars "B" = some c2varB1 ∧
      c2varB1.status ≠ VStatus.Loading ∧
      lookupVar (step c2s1 (Event.complete "A" "AA" "AA")).vars "B" = some c2varB2 ∧
      c2varB2.status = VStatus.Loading) ∧
    (∀ dep ∈ depsOf (buildGraph c2s1.vars) "B",
      ∃ u, lookupVar (step c2s1 (Event.complete "A" "AA" "AA")).vars dep = some u ∧
        settledForReadiness u = true) :=
  ⟨⟨by decide, by decide, by decide, by decide, by decide⟩,
   @c2_amended_started_only_when_deps_settled c2s1 (by decide) (Or.inr (by decide))
     (Event.complete "A" "AA" "AA") "B" c2varB1 c2varB2
     (by decide) (by decide) (by decide) (by decide)⟩

/-! ### Cascades start every ready dependent -/

theorem cascadeFrom_starts_ready {G : Graph} {vars1 : List SVar} {n d : String} {dv : SVar}
    (hnd1 : (varNames vars1).Nodup) (hdnod : (dependentsOf G n).Nodup)
    (hd : d ∈ dependentsOf G n) (hdv : lookupVar vars1 d = some dv)
    (hdeps : ∀ dep ∈ depsOf G d, dep ∉ dependentsOf G n ∧
        ∃ u, lookupVar vars1 dep = some u ∧ settledForReadiness u = true) :
    ∃ w, lookupVar (cascadeFrom G vars1 n) d = some w ∧
      w.status = VStatus.Loading ∧ w.loading = some true := by
  simp only [cascadeFrom]
  have hdc : lookupVar ((dependentsOf G n).foldl cancelIfLoading vars1) d =
      some (cancelTransform dv) :=
    foldl_cancel_cancels (dependentsOf G n) vars1 d dv hd hdv
  have hndc : (varNames ((dependentsOf G n).foldl cancelIfLoading vars1)).Nodup := by
    rw [foldl_cancel_varNames]
    exact hnd1
  apply foldl_startGuarded_starts okRestart rfl (dependentsOf G n) hdnod _ hndc d
    (cancelTransform dv) hdc (okRestart_true (cancelTransform_not_loading dv)) hd
  intro dep hdep
  rcases hdeps dep hdep with ⟨hp, u, hu, hsu⟩
  refine ⟨hp, ⟨u, ?_, hsu⟩, Or.inl hp⟩
  rw [foldl_cancel_lookup_not_mem _ _ _ hp]
  exact hu

/-! ### Cascades leave blocked dependents untouched -/

theorem foldl_startGuarded_blocked {ok : VStatus → Bool} {g : Graph} {p : List String}
    (hok : ok VStatus.Loading = false) :
    ∀ (l : List String) (vs : List SVar) (d dep : String) (dv : SVar),
      (∀ m ∈ l, m ∈ p) → (varNames vs).Nodup →
      dep ∈ depsOf g d →
      (dep ∈ p ∨ ∀ u, lookupVar vs dep = some u → settledForReadiness u = false) →
      lookupVar vs d = some dv →
      lookupVar (l.foldl (startGuarded ok g p) vs) d = some dv := by
  intro l
  induction l with
  | nil => intro vs d dep dv _ _ _ _ hdv; exact hdv
  | cons m l ih =>
    intro vs d dep dv hsub hnd hdep hblk hdv
    rw [List.foldl_cons]
    by_cases hmd : m = d
    · have hnr : ¬ isReady g (availableSet p vs) m = true := by
        intro hr
        have hdm : dep ∈ depsOf g m := by rw [hmd]; exact hdep
        rcases mem_availableSet.mp (isReady_eq_true_iff.mp hr dep hdm) with ⟨hres, hnp⟩
        rcases hblk with hp | hunset
        · exact hnp hp
        · rcases lookup_settled_of_mem_resolvedSet hnd hres with ⟨u, hu, hsu⟩
          rw [hunset u hu] at hsu
          exact Bool.false_ne_true hsu
      rw [startGuarded_id_of_not_ready hnr]
      exact ih vs d dep dv (fun x hx => hsub x (List.mem_cons_of_mem _ hx)) hnd hdep hblk hdv
    · have hnd' : (varNames (startGuarded ok g p vs m)).Nodup := by
        rw [stepShape_varNames (startGuarded_shape hok g p) vs m]
        exact hnd
      have hdv' : lookupVar (startGuarded ok g p vs m) d = some dv := by
        rw [startGuarded_lookup_ne hmd]
        exact hdv
      have hblk' : dep ∈ p ∨
          ∀ u, lookupVar (startGuarded ok g p vs m) dep = some u →
            settledForReadiness u = false := by
        by_cases hdm : dep = m
        · refine Or.inl ?_
          rw [hdm]
          exact hsub m (List.mem_cons_self _ _)
        · rcases hblk with hp | hunset
          · exact Or.inl hp
          · refine Or.inr ?_
            intro u hu
            rw [startGuarded_lookup_ne (fun h => hdm h.symm)] at hu
            exact hunset u hu
      exact ih _ d dep dv (fun x hx => hsub x (List.mem_cons_of_mem _ hx)) hnd' hdep hblk' hdv'

theorem cascadeFrom_blocked_dependent_unchanged {G : Graph} {vars1 : List SVar}
    {n d dep : String} {dv : SVar}
    (hnd1 : (varNames vars1).Nodup)
    (hd : d ∈ dependentsOf G n) (hdv : lookupVar vars1 d = some dv)
    (hdnl : dv.status ≠ VStatus.Loading)
    (hdep : dep ∈ depsOf G d)
    (hblk : dep ∈ dependentsOf G n ∨
      ∀ u, lookupVar vars1 dep = some u → settledForReadiness u = false) :
    lookupVar (cascadeFrom G vars1 n) d = some dv := by
  simp only [cascadeFrom]
  have hdc : lookupVar ((dependentsOf G n).foldl cancelIfLoading vars1) d = some dv := by
    have h := foldl_cancel_cancels (dependentsOf G n) vars1 d dv hd hdv
    rw [cancelTransform, if_neg hdnl] at h
    exact h
  have hndc : (varNames ((dependentsOf G n).foldl cancelIfLoading vars1)).Nodup := by
    rw [foldl_cancel_varNames]
    exact hnd1
  have hblk' : dep ∈ dependentsOf G n ∨
      ∀ u, lookupVar ((dependentsOf G n).foldl cancelIfLoading vars1) dep = some u →
        settledForReadiness u = false := by
    rcases hblk with hp | hunset
    · exact Or.inl hp
    · by_cases hdp : dep ∈ dependentsOf G n
      · exact Or.inl hdp
      · refine Or.inr ?_
        intro u hu
        rw [foldl_cancel_lookup_not_mem _ _ _ hdp] at hu
        exact hunset u hu
  exact foldl_startGuarded_blocked rfl (dependentsOf G n) _ d dep dv (fun x hx => hx)
    hndc hdep hblk' hdc

/-- C4: when a variable's update completes with a changed value or text, or
its value is set directly, every direct dependent all of whose other
dependencies are settled and not themselves restarting in the same round
transitions into `Loading`; and every direct dependent that still has
another dependency that is unmet — itself restarting in the same round, or
unsettled in the state — does not restart and is left byte-for-byte
unchanged. -/
theorem c4_changed_value_starts_ready_dependents
    {s : SetState} {n v t : String} {var : SVar} {d : String} {dv : SVar}
    (hnd : (varNames s.vars).Nodup)
    (hg : s.graph = some (buildGraph s.vars))
    (hvar : lookupVar s.vars n = some var)
    (hd : d ∈ dependentsOf (buildGraph s.vars) n)
    (hdv : lookupVar s.vars d = some dv) (hdnl : dv.status ≠ VStatus.Loading)
    (hdeps : ∀ dep ∈ depsOf (buildGraph s.vars) d, dep ≠ n →
        dep ∉ dependentsOf (buildGraph s.vars) n ∧
        ∃ u, lookupVar s.vars dep = some u ∧ settledForReadiness u = true) :
    (var.status = VStatus.Loading → ¬(var.value = v ∧ var.text = t) →
      ∃ w, lookupVar (completeUpdate s n v t).vars d = some w ∧
        w.status = VStatus.Loading ∧ w.loading = some true) ∧
    (¬(var.value = v ∧ var.text = t) →
      ∃ w, lookupVar (setValueDirectly s n v t).vars d = some w ∧
        w.status = VStatus.Loading ∧ w.loading = some true) ∧
    (∀ d2 dv2 dep2, d2 ∈ dependentsOf (buildGraph s.vars) n →
      lookupVar s.vars d2 = some dv2 → dv2.status ≠ VStatus.Loading →
      dep2 ∈ depsOf (buildGraph s.vars) d2 → dep2 ≠ n →
      (dep2 ∈ dependentsOf (buildGraph s.vars) n ∨
        ∀ u, lookupVar s.vars dep2 = some u → settledForReadiness u = false) →
      var.status = VStatus.Loading → ¬(var.value = v ∧ var.text = t) →
      lookupVar (completeUpdate s n v t).vars d2 = some dv2) ∧
    (∀ d2 dv2 dep2, d2 ∈ dependentsOf (buildGraph s.vars) n →
      lookupVar s.vars d2 = some dv2 → dv2.status ≠ VStatus.Loading →
      dep2 ∈ depsOf (buildGraph s.vars) d2 → dep2 ≠ n →
      (dep2 ∈ dependentsOf (buildGraph s.vars) n ∨
        ∀ u, lookupVar s.vars dep2 = some u → settledForReadiness u = false) →
      ¬(var.value = v ∧ var.text = t) →
      lookupVar (setValueDirectly s n v t).vars d2 = some dv2) := by
  have hG : activeGraph s = buildGraph s.vars := activeGraph_eq hg
  have hnmem : n ∉ dependentsOf (buildGraph s.vars) n := no_self_dependent hnd
  have hdn : d ≠ n := fun h => hnmem (h ▸ hd)
  have hdnod : (dependentsOf (buildGraph s.vars) n).Nodup := dependentsOf_nodup hnd
  refine ⟨?_, ?_, ?_, ?_⟩
  · intro hld hch
    have hcu : (completeUpdate s n v t).vars =
        cascadeFrom (activeGraph s) (updateVar s.vars n (resolveTransform v t)) n := by
      simp only [completeUpdate, hvar]
      rw [if_pos hld, if_neg hch]
    rw [hcu, hG]
    have hnd1 : (varNames (updateVar s.vars n (resolveTransform v t))).Nodup := by
      rw [varNames_updateVar (resolveTransform v t) (fun _ => rfl)]
      exact hnd
    have hdv1 : lookupVar (updateVar s.vars n (resolveTransform v t)) d = some dv := by
      rw [lookupVar_updateVar_ne (resolveTransform v t) (fun _ => rfl) hdn]
      exact hdv
    apply cascadeFrom_starts_ready hnd1 hdnod hd hdv1
    intro dep hdep
    by_cases hdepn : dep = n
    · subst hdepn
      refine ⟨hnmem, resolveTransform v t var, ?_, settled_of_resolved rfl⟩
      rw [lookupVar_updateVar_self (resolveTransform v t) (fun _ => rfl), hvar]
      rfl
    · rcases hdeps dep hdep hdepn with ⟨hm, u, hu, hsu⟩
      refine ⟨hm, u, ?_, hsu⟩
      rw [lookupVar_updateVar_ne (resolveTransform v t) (fun _ => rfl) hdepn]
      exact hu
  · intro hch
    have hcu : (setValueDirectly s n v t).vars =
        cascadeFrom (activeGraph s) (updateVar s.vars n (setValTransform v t)) n := by
      simp only [setValueDirectly, hvar]
      rw [if_neg hch]
    rw [hcu, hG]
    have hnd1 : (varNames (updateVar s.vars n (setValTransform v t))).Nodup := by
      rw [varNames_updateVar (setValTransform v t) (fun _ => rfl)]
      exact hnd
    have hdv1 : lookupVar (updateVar s.vars n (setValTransform v t)) d = some dv := by
      rw [lookupVar_updateVar_ne (setValTransform v t) (fun _ => rfl) hdn]
      exact hdv
    apply cascadeFrom_starts_ready hnd1 hdnod hd hdv1
    intro dep hdep
    by_cases hdepn : dep = n
    · subst hdepn
      refine ⟨hnmem, setValTransform v t var, ?_, settled_of_resolved rfl⟩
      rw [lookupVar_updateVar_self (setValTransform v t) (fun _ => rfl), hvar]
      rfl
    · rcases hdeps dep hdep hdepn with ⟨hm, u, hu, hsu⟩
      refine ⟨hm, u, ?_, hsu⟩
      rw [lookupVar_updateVar_ne (setValTransform v t) (fun _ => rfl) hdepn]
      exact hu
  · intro d2 dv2 dep2 hd2 hlk2 hnl2 hdep2 hdep2n hblk2 hld hch
    have hd2n : d2 ≠ n := fun h => hnmem (h ▸ hd2)
    have hcu : (completeUpdate s n v t).vars =
        cascadeFrom (activeGraph s) (updateVar s.vars n (resolveTransform v t)) n := by
      simp only [completeUpdate, hvar]
      rw [if_pos hld, if_neg hch]
    rw [hcu, hG]
    have hnd1 : (varNames (updateVar s.vars n (resolveTransform v t))).Nodup := by
      rw [varNames_updateVar (resolveTransform v t) (fun _ => rfl)]
      exact hnd
    have hlk1 : lookupVar (updateVar s.vars n (resolveTransform v t)) d2 = some dv2 := by
      rw [lookupVar_updateVar_ne (resolveTransform v t) (fun _ => rfl) hd2n]
      exact hlk2
    have hblk1 : dep2 ∈ dependentsOf (buildGraph s.vars) n ∨
        ∀ u, lookupVar (updateVar s.vars n (resolveTransform v t)) dep2 = some u →
          settledForReadiness u = false := by
      rcases hblk2 with hp | hunset
      · exact Or.inl hp
      · refine Or.inr ?_
        intro u hu
        rw [lookupVar_updateVar_ne (resolveTransform v t) (fun _ => rfl) hdep2n] at hu
        exact hunset u hu
    exact cascadeFrom_blocked_dependent_unchanged hnd1 hd2 hlk1 hnl2 hdep2 hblk1
  · intro d2 dv2 dep2 hd2 hlk2 hnl2 hdep2 hdep2n hblk2 hch
    have hd2n : d2 ≠ n := fun h => hnmem (h ▸ hd2)
    have hcu : (setValueDirectly s n v t).vars =
        cascadeFrom (activeGraph s) (updateVar s.vars n (setValTransform v t)) n := by
      simp only [setValueDirectly, hvar]
      rw [if_neg hch]
    rw [hcu, hG]
    have hnd1 : (varNames (updateVar s.vars n (setValTransform v t))).Nodup := by
      rw [varNames_updateVar (setValTransform v t) (fun _ => rfl)]
      exact hnd
    have hlk1 : lookupVar (updateVar s.vars n (setValTransform v t)) d2 = some dv2 := by
      rw [lookupVar_updateVar_ne (setValTransform v t) (fun _ => rfl) hd2n]
      exact hlk2
    have hblk1 : dep2 ∈ dependentsOf (buildGraph s.vars) n ∨
        ∀ u, lookupVar (updateVar s.vars n (setValTransform v t)) dep2 = some u →
          settledForReadiness u = false := by
      rcases hblk2 with hp | hunset
      · exact Or.inl hp
      · refine Or.inr ?_
        intro u hu
        rw [lookupVar_updateVar_ne (setValTransform v t) (fun _ => rfl) hdep2n] at hu
        exact hunset u hu
    exact cascadeFrom_blocked_dependent_unchanged hnd1 hd2 hlk1 hnl2 hdep2 hblk1

/-- The fully resolved value-change scenario state, before A's value is
set directly. -/
def c4state : SetState := run abc2Set [Event.activate, Event.complete "A" "AA" "AA",
  Event.complete "B" "AAA" "AAA", Event.complete "C" "CC" "CC"]

/-- The concrete resolved variable A in `c4state`. -/
def c4varA : SVar :=
  { name := "A", query := "A.*", value := "AA", text := "AA",
    status := VStatus.Resolved, loading := some false, issuedQuery := some "A.*",
    errMsg := none, everResolved := true, inFlight := 0 }

/-- The concrete resolved variable B in `c4state`. -/
def c4varB : SVar :=
  { name := "B", query := "A.$A.*", value := "AAA", text := "AAA",
    status := VStatus.Resolved, loading := some false, issuedQuery := some "A.AA.*",
    errMsg := none, everResolved := true, inFlight := 0 }

/-- The concrete resolved variable C in `c4state`: it depends on both A
and B, so when A changes it must wait for B's restart. -/
def c4varC : SVar :=
  { name := "C", query := "A.$A.$B.*", value := "CC", text := "CC",
    status := VStatus.Resolved, loading := some false, issuedQuery := some "A.AA.AAA.*",
    errMsg := none, everResolved := true, inFlight := 0 }

theorem c4_changed_value_witness :
    lookupVar c4state.vars "A" = some c4varA ∧
    "B" ∈ dependentsOf (buildGraph c4state.vars) "A" ∧
    ¬(c4varA.value = "AB" ∧ c4varA.text = "AB") ∧
    (∃ w, lookupVar (setValueDirectly c4state "A" "AB" "AB").vars "B" = some w ∧
      w.status = VStatus.Loading ∧ w.loading = some true) ∧
    ("C" ∈ dependentsOf (buildGraph c4state.vars) "A" ∧
      "B" ∈ depsOf (buildGraph c4state.vars) "C" ∧
      lookupVar c4state.vars "C" = some c4varC ∧
      lookupVar (setValueDirectly c4state "A" "AB" "AB").vars "C" = some c4varC ∧
      c4varC.loading = some false ∧ c4varC.status ≠ VStatus.Loading) :=
  ⟨by decide, by decide, by decide,
   (@c4_changed_value_starts_ready_dependents c4state "A" "AB" "AB" c4varA "B" c4varB
     (by decide) (by decide) (by decide) (by decide) (by decide) (by decide)
     (by
       intro dep hdep hne
       have hl : depsOf (buildGraph c4state.vars) "B" = ["A"] := by decide
       rw [hl] at hdep
       rcases List.mem_cons.mp hdep with h | h
       · exact absurd h hne
       · exact absurd h (List.not_mem_nil dep))).2.1 (by decide),
   by decide, by decide, by decide,
   (@c4_changed_value_starts_ready_dependents c4state "A" "AB" "AB" c4varA "B" c4varB
     (by decide) (by decide) (by decide) (by decide) (by decide) (by decide)
     (by
       intro dep hdep hne
       have hl : depsOf (buildGraph c4state.vars) "B" = ["A"] := by decide
       rw [hl] at hdep
       rcases List.mem_cons.mp hdep with h | h
       · exact absurd h hne
       · exact absurd h (List.not_mem_nil dep))).2.2.2 "C" c4varC "B"
     (by decide) (by decide) (by decide) (by decide) (by decide)
     (Or.inl (by decide)) (by decide),
   by decide, by decide⟩

/-- C7: deactivation cancels the in-flight update of every loading
variable and leaves every variable non-loading, with the graph dropped;
when the in-flight invariant held before, nothing remains in flight. -/
theorem c7_deactivation_cancels_everything (s : SetState) :
    (∀ v ∈ (deactivate s).vars, v.status ≠ VStatus.Loading) ∧
    (∀ n var, lookupVar s.vars n = some var → var.status = VStatus.Loading →
      lookupVar (deactivate s).vars n = some (cancelVar var)) ∧
    (deactivate s).graph = none ∧
    (AllInv s.vars → ∀ v ∈ (deactivate s).vars, v.inFlight = 0) := by
  refine ⟨?_, ?_, rfl, ?_⟩
  · intro v hv
    rcases List.mem_map.mp hv with ⟨u, _, he⟩
    rw [← he]
    exact cancelTransform_not_loading u
  · intro n var hvar hld
    show lookupVar (s.vars.map cancelTransform) n = some (cancelVar var)
    rw [lookupVar_map cancelTransform cancelTransform_name, hvar]
    show some (cancelTransform var) = some (cancelVar var)
    rw [cancelTransform, if_pos hld]
  · intro hinv v hv
    rcases List.mem_map.mp hv with ⟨u, hu, he⟩
    have h1 : InvVar (cancelTransform u) := InvVar_cancelTransform (hinv u hu)
    have h2 : (cancelTransform u).status ≠ VStatus.Loading := cancelTransform_not_loading u
    rw [InvVar, if_neg h2] at h1
    rw [← he]
    exact h1

/-- The single-variable scenario, activated: its only variable is loading
with one request in flight. -/
def c7state : SetState := run oneSet [Event.activate]

/-- The concrete loading variable A in `c7state`. -/
def c7varA : SVar :=
  { name := "A", query := "A.*", value := "", text := "",
    status := VStatus.Loading, loading := some true, issuedQuery := some "A.*",
    errMsg := none, everResolved := false, inFlight := 1 }

theorem c7_deactivation_witness :
    lookupVar c7state.vars "A" = some c7varA ∧ c7varA.status = VStatus.Loading ∧
    c7varA.inFlight = 1 ∧
    lookupVar (deactivate c7state).vars "A" = some (cancelVar c7varA) ∧
    (cancelVar c7varA).status = VStatus.Idle ∧ (cancelVar c7varA).inFlight = 0 ∧
    (deactivate c7state).graph = none :=
  ⟨by decide, by decide, by decide,
   (c7_deactivation_cancels_everything c7state).2.1 "A" c7varA (by decide) (by decide),
   by decide, by decide,
   (c7_deactivation_cancels_everything c7state).2.2.1⟩

/-! ### Runs of event sequences preserve names and the in-flight invariant -/

instance decInvVar (v : SVar) : Decidable (InvVar v) :=
  decidable_of_iff (v.inFlight = (if v.status = VStatus.Loading then 1 else 0)) Iff.rfl

instance decAllInv (vs : List SVar) : Decidable (AllInv vs) :=
  decidable_of_iff (∀ v ∈ vs, InvVar v) Iff.rfl

theorem run_varNames (s : SetState) :
    ∀ (es : List Event), varNames (run s es).vars = varNames s.vars := by
  intro es
  induction es generalizing s with
  | nil => rfl
  | cons e es ih =>
    show varNames (run (step s e) es).vars = varNames s.vars
    rw [ih (step s e), step_varNames]

theorem run_AllInv {s : SetState} (hnd : (varNames s.vars).Nodup) (hinv : AllInv s.vars) :
    ∀ (es : List Event), AllInv (run s es).vars := by
  intro es
  induction es generalizing s with
  | nil => exact hinv
  | cons e es ih =>
    show AllInv (run (step s e) es).vars
    exact ih (by rw [step_varNames]; exact hnd) (step_AllInv hnd hinv e)

/-! ### Cancellation before restart, and fresh interpolations -/

theorem lookupVar_updateVar_none (f : SVar → SVar) (hf : ∀ v, (f v).name = v.name)
    {vs : List SVar} {n m : String} (h : lookupVar vs m = none) :
    lookupVar (updateVar vs n f) m = none := by
  by_cases hmn : m = n
  · subst hmn
    rw [lookupVar_updateVar_self f hf, h]
    rfl
  · rw [lookupVar_updateVar_ne f hf hmn]
    exact h

theorem foldl_cancel_none :
    ∀ (l : List String) (vs : List SVar) (m : String), lookupVar vs m = none →
      lookupVar (l.foldl cancelIfLoading vs) m = none := by
  intro l
  induction l with
  | nil => intro vs m h; exact h
  | cons n l ih =>
    intro vs m h
    rw [List.foldl_cons]
    exact ih _ _ (lookupVar_updateVar_none cancelTransform cancelTransform_name h)

theorem cascadeFrom_cancels_and_refreshes {G : Graph} {vars1 : List SVar} {n d : String}
    (hd : d ∈ dependentsOf G n) :
    (∀ dv, lookupVar vars1 d = some dv → dv.status = VStatus.Loading →
      lookupVar ((dependentsOf G n).foldl cancelIfLoading vars1) d = some (cancelVar dv) ∧
      ∃ w, lookupVar (cascadeFrom G vars1 n) d = some w ∧
        (w.status = VStatus.Idle ∨ w.status = VStatus.Loading)) ∧
    (∀ w, lookupVar (cascadeFrom G vars1 n) d = some w → w.status = VStatus.Loading →
      w.issuedQuery = some (interpolate (cascadeFrom G vars1 n) w.query)) := by
  constructor
  · intro dv hdv hldv
    have hc : lookupVar ((dependentsOf G n).foldl cancelIfLoading vars1) d =
        some (cancelTransform dv) := foldl_cancel_cancels _ _ _ _ hd hdv
    have hct : cancelTransform dv = cancelVar dv := by
      rw [cancelTransform, if_pos hldv]
    refine ⟨by rw [hc, hct], ?_⟩
    show ∃ w, lookupVar ((dependentsOf G n).foldl (startGuarded okRestart G (dependentsOf G n))
      ((dependentsOf G n).foldl cancelIfLoading vars1)) d = some w ∧
      (w.status = VStatus.Idle ∨ w.status = VStatus.Loading)
    rcases foldl_stepShape_pred
      (show StepShape G (dependentsOf G n) (startGuarded okRestart G (dependentsOf G n)) from
        startGuarded_shape rfl G (dependentsOf G n))
      (fun x => x.status = VStatus.Idle ∨ x.status = VStatus.Loading)
      (fun _ _ _ _ => Or.inr rfl) (dependentsOf G n) _ d (cancelTransform dv)
      hc (by rw [hct]; exact Or.inl rfl) with ⟨w, hw, hPw⟩
    exact ⟨w, hw, hPw⟩
  · intro w hw hlw
    simp only [cascadeFrom] at hw
    have base : ∀ x u, x ∈ dependentsOf G n →
        lookupVar ((dependentsOf G n).foldl cancelIfLoading vars1) x = some u →
        u.status = VStatus.Loading →
        u.issuedQuery =
          some (interpolate ((dependentsOf G n).foldl cancelIfLoading vars1) u.query) := by
      intro x u hx hu hlu
      cases h1 : lookupVar vars1 x with
      | none =>
        rw [foldl_cancel_none _ _ _ h1] at hu
        exact Option.noConfusion hu
      | some u0 =>
        have h2 := foldl_cancel_cancels _ _ _ _ hx h1
        rw [h2] at hu
        cases hu
        exact absurd hlu (cancelTransform_not_loading u0)
    have hfresh := foldl_startGuarded_fresh okRestart rfl (dependentsOf G n)
      ((dependentsOf G n).foldl cancelIfLoading vars1)
      ((dependentsOf G n).foldl cancelIfLoading vars1) rfl base d w hd hw hlw
    have hvm : vmap (cascadeFrom G vars1 n) =
        vmap ((dependentsOf G n).foldl cancelIfLoading vars1) := by
      simp only [cascadeFrom]
      exact vmap_foldl_stepShape (startGuarded_shape rfl G (dependentsOf G n)) _ _
    rw [interpolate_congr hvm]
    exact hfresh

/-- C6: (a) runs of scheduler events preserve the in-flight invariant —
a variable has exactly one outstanding request while `Loading` and none
otherwise, so no variable ever has more than one update in the air; (b)
and (c) when a variable's value settles with a change (completion or
direct set), a direct dependent that was `Loading` is first cancelled
(cancelled to `Idle` in the cancellation pass) and ends either `Idle` or
restarted, and every dependent loading afterwards carries the
interpolation of the resulting state's current values — never a stale
one. -/
theorem c6_at_most_one_inflight_and_fresh :
    (∀ (s : SetState) (es : List Event), (varNames s.vars).Nodup → AllInv s.vars →
      AllInv (run s es).vars) ∧
    (∀ (s : SetState) (n v t : String) (var : SVar) (d : String),
      (varNames s.vars).Nodup → s.graph = some (buildGraph s.vars) →
      lookupVar s.vars n = some var → var.status = VStatus.Loading →
      ¬(var.value = v ∧ var.text = t) → d ∈ dependentsOf (buildGraph s.vars) n →
      (∀ dv, lookupVar s.vars d = some dv → dv.status = VStatus.Loading →
        ∃ w, lookupVar (completeUpdate s n v t).vars d = some w ∧
          (w.status = VStatus.Idle ∨ w.status = VStatus.Loading)) ∧
      (∀ w, lookupVar (completeUpdate s n v t).vars d = some w →
        w.status = VStatus.Loading →
        w.issuedQuery = some (interpolate (completeUpdate s n v t).vars w.query))) ∧
    (∀ (s : SetState) (n v t : String) (var : SVar) (d : String),
      (varNames s.vars).Nodup → s.graph = some (buildGraph s.vars) →
      lookupVar s.vars n = some var →
      ¬(var.value = v ∧ var.text = t) → d ∈ dependentsOf (buildGraph s.vars) n →
      (∀ dv, lookupVar s.vars d = some dv → dv.status = VStatus.Loading →
        ∃ w, lookupVar (setValueDirectly s n v t).vars d = some w ∧
          (w.status = VStatus.Idle ∨ w.status = VStatus.Loading)) ∧
      (∀ w, lookupVar (setValueDirectly s n v t).vars d = some w →
        w.status = VStatus.Loading →
        w.issuedQuery = some (interpolate (setValueDirectly s n v t).vars w.query))) := by
  refine ⟨fun s es hnd hinv => run_AllInv hnd hinv es, ?_, ?_⟩
  · intro s n v t var d hnd hg hvar hld hch hd
    have hG := activeGraph_eq hg
    have hdn : d ≠ n := fun h => no_self_dependent hnd (h ▸ hd)
    have hcu : (completeUpdate s n v t).vars =
        cascadeFrom (buildGraph s.vars) (updateVar s.vars n (resolveTransform v t)) n := by
      simp only [completeUpdate, hvar]
      rw [if_pos hld, if_neg hch, hG]
    constructor
    · intro dv hdv hldv
      have hdv1 : lookupVar (updateVar s.vars n (resolveTransform v t)) d = some dv := by
        rw [lookupVar_updateVar_ne (resolveTransform v t) (fun _ => rfl) hdn]
        exact hdv
      rw [hcu]
      exact ((cascadeFrom_cancels_and_refreshes hd).1 dv hdv1 hldv).2
    · intro w hw hlw
      rw [hcu] at hw ⊢
      exact (cascadeFrom_cancels_and_refreshes hd).2 w hw hlw
  · intro s n v t var d hnd hg hvar hch hd
    have hG := activeGraph_eq hg
    have hdn : d ≠ n := fun h => no_self_dependent hnd (h ▸ hd)
    have hcu : (setValueDirectly s n v t).vars =
        cascadeFrom (buildGraph s.vars) (updateVar s.vars n (setValTransform v t)) n := by
      simp only [setValueDirectly, hvar]
      rw [if_neg hch, hG]
    constructor
    · intro dv hdv hldv
      have hdv1 : lookupVar (updateVar s.vars n (setValTransform v t)) d = some dv := by
        rw [lookupVar_updateVar_ne (setValTransform v t) (fun _ => rfl) hdn]
        exact hdv
      rw [hcu]
      exact ((cascadeFrom_cancels_and_refreshes hd).1 dv hdv1 hldv).2
    · intro w hw hlw
      rw [hcu] at hw ⊢
      exact (cascadeFrom_cancels_and_refreshes hd).2 w hw hlw

theorem c6_inflight_fresh_witness :
    ((varNames abcSet.vars).Nodup ∧ AllInv abcSet.vars) ∧
    AllInv (run abcSet [Event.activate, Event.complete "A" "AA" "AA"]).vars ∧
    (∀ w, lookupVar (setValueDirectly c4state "A" "AB" "AB").vars "B" = some w →
      w.status = VStatus.Loading →
      w.issuedQuery =
        some (interpolate (setValueDirectly c4state "A" "AB" "AB").vars w.query)) :=
  ⟨⟨by decide, by decide⟩,
   c6_at_most_one_inflight_and_fresh.1 abcSet [Event.activate, Event.complete "A" "AA" "AA"]
     (by decide) (by decide),
   (c6_at_most_one_inflight_and_fresh.2.2 c4state "A" "AB" "AB" c4varA "B"
     (by decide) (by decide) (by decide) (by decide) (by decide)).2⟩

/-! ### Events touching a given variable, and conditional preservation -/

/-- The event is a completion of variable `x`. -/
def completesVar (x : String) : Event → Prop
  | Event.complete n _ _ => n = x
  | _ => False

/-- The event sets variable `x` directly. -/
def setsVar (x : String) : Event → Prop
  | Event.setValue n _ _ => n = x
  | _ => False

instance decCompletesVar (x : String) : ∀ e : Event, Decidable (completesVar x e)
  | Event.complete n _ _ => inferInstanceAs (Decidable (n = x))
  | Event.activate => inferInstanceAs (Decidable False)
  | Event.deactivate => inferInstanceAs (Decidable False)
  | Event.fail _ _ => inferInstanceAs (Decidable False)
  | Event.setValue _ _ _ => inferInstanceAs (Decidable False)

instance decSetsVar (x : String) : ∀ e : Event, Decidable (setsVar x e)
  | Event.setValue n _ _ => inferInstanceAs (Decidable (n = x))
  | Event.activate => inferInstanceAs (Decidable False)
  | Event.deactivate => inferInstanceAs (Decidable False)
  | Event.complete _ _ _ => inferInstanceAs (Decidable False)
  | Event.fail _ _ => inferInstanceAs (Decidable False)

theorem startGuarded_notok_frame {ok : VStatus → Bool} {g : Graph} {p : List String}
    {vs : List SVar} {n m : String} {u : SVar}
    (hu : lookupVar vs m = some u) (hoku : ok u.status = false) :
    lookupVar (startGuarded ok g p vs n) m = some u := by
  cases hl : lookupVar vs n with
  | none => simp only [startGuarded, hl]; exact hu
  | some w =>
    simp only [startGuarded, hl]
    by_cases hc : ok w.status = true ∧ isReady g (availableSet p vs) n = true
    · rw [if_pos hc]
      by_cases hmn : m = n
      · subst hmn
        have he : w = u := by rw [hu] at hl; cases hl; rfl
        subst he
        rw [hoku] at hc
        exact absurd hc.1 Bool.false_ne_true
      · rw [startUpdate, lookupVar_updateVar_ne (startTransform vs) (fun _ => rfl) hmn]
        exact hu
    · rw [if_neg hc]
      exact hu

theorem foldl_startGuarded_notok {ok : VStatus → Bool} {g : Graph} {p : List String} :
    ∀ (l : List String) (vs : List SVar) (m : String) (u : SVar),
      lookupVar vs m = some u → ok u.status = false →
      lookupVar (l.foldl (startGuarded ok g p) vs) m = some u := by
  intro l
  induction l with
  | nil => intro vs m u hu _; exact hu
  | cons n l ih =>
    intro vs m u hu hoku
    exact ih _ _ _ (startGuarded_notok_frame hu hoku) hoku

/-- Conditional pointwise preservation across one scheduler step:
a property preserved by start and cancel transforms survives a step on any
variable, provided the event's own per-variable transform preserves it
whenever the event actually rewrites that variable. -/
theorem step_pred (P : SVar → Prop)
    (hstart : ∀ vs w, w.status ≠ VStatus.Loading → P w → P (startTransform vs w))
    (hcancel : ∀ w, P w → P (cancelTransform w)) :
    ∀ (s : SetState) (e : Event) (m : String) (w : SVar),
      lookupVar s.vars m = some w → P w →
      (∀ n v t, e = Event.complete n v t → n = m → w.status = VStatus.Loading →
        ∀ x, P x → P (resolveTransform v t x)) →
      (∀ n msg, e = Event.fail n msg → n = m → w.status = VStatus.Loading →
        ∀ x, P x → P (errTransform msg x)) →
      (∀ n v t, e = Event.setValue n v t → n = m →
        ∀ x, P x → P (setValTransform v t x)) →
      ∃ w', lookupVar (step s e).vars m = some w' ∧ P w' := by
  intro s e m w hw hPw hres herr hset
  cases e with
  | activate =>
    by_cases hac : isAcyclic (buildGraph s.vars) = true
    · have hstep : (step s Event.activate).vars =
          (varNames s.vars).foldl (startGuarded okIdle (buildGraph s.vars) []) s.vars := by
        rw [step, activate_eq_ok hac]
      rw [hstep]
      exact foldl_stepShape_pred (startGuarded_shape rfl _ _) P hstart _ _ _ _ hw hPw
    · have hstep : step s Event.activate = s := by rw [step, activate_eq_error hac]
      rw [hstep]
      exact ⟨w, hw, hPw⟩
  | deactivate =>
    refine ⟨cancelTransform w, ?_, hcancel w hPw⟩
    show lookupVar (s.vars.map cancelTransform) m = some (cancelTransform w)
    rw [lookupVar_map cancelTransform cancelTransform_name, hw]
    rfl
  | complete n v t =>
    have hstep : (step s (Event.complete n v t)).vars = (completeUpdate s n v t).vars := by
      rw [step]
    rw [hstep]
    cases hln : lookupVar s.vars n with
    | none =>
      have hcu : (completeUpdate s n v t).vars = s.vars := by
        simp only [completeUpdate, hln]
      rw [hcu]
      exact ⟨w, hw, hPw⟩
    | some var =>
      by_cases hld : var.status = VStatus.Loading
      · have hP1 : ∃ w1, lookupVar (updateVar s.vars n (resolveTransform v t)) m = some w1 ∧
            P w1 := by
          by_cases hnm : n = m
          · subst hnm
            have he : var = w := by rw [hw] at hln; cases hln; rfl
            refine ⟨resolveTransform v t w, ?_, hres n v t rfl rfl (he ▸ hld) w hPw⟩
            rw [lookupVar_updateVar_self (resolveTransform v t) (fun _ => rfl), hw]
            rfl
          · refine ⟨w, ?_, hPw⟩
            rw [lookupVar_updateVar_ne (resolveTransform v t) (fun _ => rfl)
              (fun h => hnm h.symm)]
            exact hw
        rcases hP1 with ⟨w1, hw1, hPw1⟩
        by_cases hveq : var.value = v ∧ var.text = t
        · have hcu : (completeUpdate s n v t).vars =
              updateVar s.vars n (resolveTransform v t) := by
            simp only [completeUpdate, hln]
            rw [if_pos hld, if_pos hveq]
          rw [hcu]
          exact ⟨w1, hw1, hPw1⟩
        · have hcu : (completeUpdate s n v t).vars =
              cascadeFrom (activeGraph s) (updateVar s.vars n (resolveTransform v t)) n := by
            simp only [completeUpdate, hln]
            rw [if_pos hld, if_neg hveq]
          rw [hcu]
          simp only [cascadeFrom]
          rcases foldl_cancel_pred hcancel _ _ _ _ hw1 hPw1 with ⟨w2, hw2, hPw2⟩
          exact foldl_stepShape_pred (startGuarded_shape rfl _ _) P hstart _ _ _ _ hw2 hPw2
      · have hcu : (completeUpdate s n v t).vars = s.vars := by
          simp only [completeUpdate, hln]
          rw [if_neg hld]
        rw [hcu]
        exact ⟨w, hw, hPw⟩
  | fail n msg =>
    have hstep : (step s (Event.fail n msg)).vars = (failUpdate s n msg).vars := by
      rw [step]
    rw [hstep]
    cases hln : lookupVar s.vars n with
    | none =>
      have hcu : (failUpdate s n msg).vars = s.vars := by
        simp only [failUpdate, hln]
      rw [hcu]
      exact ⟨w, hw, hPw⟩
    | some var =>
      by_cases hld : var.status = VStatus.Loading
      · have hP1 : ∃ w1, lookupVar (updateVar s.vars n (errTransform msg)) m = some w1 ∧
            P w1 := by
          by_cases hnm : n = m
          · subst hnm
            have he : var = w := by rw [hw] at hln; cases hln; rfl
            refine ⟨errTransform msg w, ?_, herr n msg rfl rfl (he ▸ hld) w hPw⟩
            rw [lookupVar_updateVar_self (errTransform msg) (fun _ => rfl), hw]
            rfl
          · refine ⟨w, ?_, hPw⟩
            rw [lookupVar_updateVar_ne (errTransform msg) (fun _ => rfl)
              (fun h => hnm h.symm)]
            exact hw
        rcases hP1 with ⟨w1, hw1, hPw1⟩
        have hcu : (failUpdate s n msg).vars =
            failCascade (activeGraph s) (updateVar s.vars n (errTransform msg)) n := by
          simp only [failUpdate, hln]
          rw [if_pos hld]
        rw [hcu]
        simp only [failCascade]
        exact foldl_stepShape_pred (startGuarded_shape rfl _ _) P hstart _ _ _ _ hw1 hPw1
      · have hcu : (failUpdate s n msg).vars = s.vars := by
          simp only [failUpdate, hln]
          rw [if_neg hld]
        rw [hcu]
        exact ⟨w, hw, hPw⟩
  | setValue n v t =>
    have hstep : (step s (Event.setValue n v t)).vars = (setValueDirectly s n v t).vars := by
      rw [step]
    rw [hstep]
    cases hln : lookupVar s.vars n with
    | none =>
      have hcu : (setValueDirectly s n v t).vars = s.vars := by
        simp only [setValueDirectly, hln]
      rw [hcu]
      exact ⟨w, hw, hPw⟩
    | some var =>
      have hP1 : ∃ w1, lookupVar (updateVar s.vars n (setValTransform v t)) m = some w1 ∧
          P w1 := by
        by_cases hnm : n = m
        · subst hnm
          have he : var = w := by rw [hw] at hln; cases hln; rfl
          refine ⟨setValTransform v t w, ?_, hset n v t rfl rfl w hPw⟩
          rw [lookupVar_updateVar_self (setValTransform v t) (fun _ => rfl), hw]
          rfl
        · refine ⟨w, ?_, hPw⟩
          rw [lookupVar_updateVar_ne (setValTransform v t) (fun _ => rfl)
            (fun h => hnm h.symm)]
          exact hw
      rcases hP1 with ⟨w1, hw1, hPw1⟩
      by_cases hveq : var.value = v ∧ var.text = t
      · have hcu : (setValueDirectly s n v t).vars =
            updateVar s.vars n (setValTransform v t) := by
          simp only [setValueDirectly, hln]
          rw [if_pos hveq]
        rw [hcu]
        exact ⟨w1, hw1, hPw1⟩
      · have hcu : (setValueDirectly s n v t).vars =
            cascadeFrom (activeGraph s) (updateVar s.vars n (setValTransform v t)) n := by
          simp only [setValueDirectly, hln]
          rw [if_neg hveq]
        rw [hcu]
        simp only [cascadeFrom]
        rcases foldl_cancel_pred hcancel _ _ _ _ hw1 hPw1 with ⟨w2, hw2, hPw2⟩
        exact foldl_stepShape_pred (startGuarded_shape rfl _ _) P hstart _ _ _ _ hw2 hPw2

theorem settled_true_cases {u : SVar} (h : settledForReadiness u = true) :
    u.status = VStatus.Resolved ∨ (u.status = VStatus.Error ∧ u.everResolved = true) := by
  cases hs : u.status with
  | Resolved => exact Or.inl rfl
  | Error =>
    refine Or.inr ⟨rfl, ?_⟩
    rw [settledForReadiness, hs] at h
    exact h
  | Idle =>
    rw [settledForReadiness, hs] at h
    exact absurd h Bool.false_ne_true
  | Loading =>
    rw [settledForReadiness, hs] at h
    exact absurd h Bool.false_ne_true

theorem not_settled_of_neverResolved {u : SVar} (h1 : u.everResolved = false)
    (h2 : u.status ≠ VStatus.Resolved) : settledForReadiness u = false := by
  cases hb : settledForReadiness u with
  | false => rfl
  | true =>
    rcases settled_true_cases hb with hr | ⟨_, hev⟩
    · exact absurd hr h2
    · rw [h1] at hev
      exact absurd hev Bool.false_ne_true

/-- A dependent whose only path to readiness goes through a dependency
that never resolved stays `Idle` for as long as nothing from outside
resolves that dependency or sets the dependent's value directly. -/
theorem stuck_dependent_stays_idle :
    ∀ (es : List Event) (s : SetState) (a b : String) (av bv : SVar),
      (varNames s.vars).Nodup → GraphOK s →
      lookupVar s.vars a = some av → av.everResolved = false →
      av.status ≠ VStatus.Resolved →
      lookupVar s.vars b = some bv → bv.status = VStatus.Idle →
      a ∈ depsOf (buildGraph s.vars) b →
      (∀ e ∈ es, ¬ completesVar a e ∧ ¬ setsVar a e ∧ ¬ setsVar b e) →
      ∃ bv', lookupVar (run s es).vars b = some bv' ∧ bv'.status = VStatus.Idle := by
  intro es
  induction es with
  | nil => intro s a b av bv _ _ _ _ _ hbv hbi _ _; exact ⟨bv, hbv, hbi⟩
  | cons e es ih =>
    intro s a b av bv hnd hg hav hev hnr hbv hbi hadep hall
    rcases hall e (List.mem_cons_self _ _) with ⟨hca, hsa, hsb⟩
    have hall' : ∀ e' ∈ es, ¬ completesVar a e' ∧ ¬ setsVar a e' ∧ ¬ setsVar b e' :=
      fun e' he' => hall e' (List.mem_cons_of_mem _ he')
    rcases step_pred (fun x => x.everResolved = false ∧ x.status ≠ VStatus.Resolved)
      (fun _ _ _ hP => ⟨hP.1, fun hc => VStatus.noConfusion hc⟩)
      (fun x hP => by
        rw [cancelTransform]
        by_cases h : x.status = VStatus.Loading
        · rw [if_pos h]
          exact ⟨hP.1, fun hc => VStatus.noConfusion hc⟩
        · rw [if_neg h]
          exact hP)
      s e a av hav ⟨hev, hnr⟩
      (fun n v t he hnm _ => absurd hnm (by rw [he] at hca; exact hca))
      (fun _ _ _ _ _ => fun x hP => ⟨hP.1, fun hc => VStatus.noConfusion hc⟩)
      (fun n v t he hnm => absurd hnm (by rw [he] at hsa; exact hsa))
      with ⟨av', hav', hPa⟩
    rcases step_pred (fun x => x.status = VStatus.Idle ∨ x.status = VStatus.Loading)
      (fun _ _ _ _ => Or.inr rfl)
      (fun x hP => by
        rw [cancelTransform]
        by_cases h : x.status = VStatus.Loading
        · rw [if_pos h]
          exact Or.inl rfl
        · rw [if_neg h]
          exact hP)
      s e b bv hbv (Or.inl hbi)
      (fun n v t he hnm hbl => absurd (hbi.symm.trans hbl) (fun hc => VStatus.noConfusion hc))
      (fun n msg he hnm hbl => absurd (hbi.symm.trans hbl) (fun hc => VStatus.noConfusion hc))
      (fun n v t he hnm => absurd hnm (by rw [he] at hsb; exact hsb))
      with ⟨bv', hbv', hPb⟩
    have hbidle : bv'.status = VStatus.Idle := by
      rcases hPb with h | h
      · exact h
      · exfalso
        have hnl : bv.status ≠ VStatus.Loading := by
          rw [hbi]
          exact fun hc => VStatus.noConfusion hc
        rcases step_newLoading_deps_settled hnd hg e hbv hnl hbv' h a hadep with ⟨u, hu, hsu⟩
        rw [hav'] at hu
        cases hu
        rw [not_settled_of_neverResolved hPa.1 hPa.2] at hsu
        exact Bool.false_ne_true hsu
    have hnd' : (varNames (step s e).vars).Nodup := by
      rw [step_varNames]
      exact hnd
    have hadep' : a ∈ depsOf (buildGraph (step s e).vars) b := by
      rw [buildGraph_step]
      exact hadep
    exact ih (step s e) a b av' bv' hnd' (graphOK_step hg e) hav' hPa.1 hPa.2 hbv' hbidle
      hadep' hall'

/-- C9: (a) a failing query puts the variable in `Error` with the error
detail attached and throws nothing; (b) an errored variable counts as
settled for its dependents' readiness exactly when it has resolved before;
(c) a dependent whose only path to readiness goes through a dependency
that never resolved stays `Idle` for the rest of the run (as long as no
external event resolves that dependency or sets the dependent directly). -/
theorem c9_query_failure_settles_or_blocks :
    (∀ (s : SetState) (n msg : String) (var : SVar),
      lookupVar s.vars n = some var → var.status = VStatus.Loading →
      ∃ var', lookupVar (failUpdate s n msg).vars n = some var' ∧
        var'.status = VStatus.Error ∧ var'.errMsg = some msg) ∧
    (∀ v : SVar, v.status = VStatus.Error →
      (settledForReadiness v = true ↔ v.everResolved = true)) ∧
    (∀ (es : List Event) (s : SetState) (a b : String) (av bv : SVar),
      (varNames s.vars).Nodup → GraphOK s →
      lookupVar s.vars a = some av → av.everResolved = false →
      av.status ≠ VStatus.Resolved →
      lookupVar s.vars b = some bv → bv.status = VStatus.Idle →
      a ∈ depsOf (buildGraph s.vars) b →
      (∀ e ∈ es, ¬ completesVar a e ∧ ¬ setsVar a e ∧ ¬ setsVar b e) →
      ∃ bv', lookupVar (run s es).vars b = some bv' ∧ bv'.status = VStatus.Idle) := by
  refine ⟨?_, ?_, stuck_dependent_stays_idle⟩
  · intro s n msg var hvar hld
    have hcu : (failUpdate s n msg).vars =
        failCascade (activeGraph s) (updateVar s.vars n (errTransform msg)) n := by
      simp only [failUpdate, hvar]
      rw [if_pos hld]
    rw [hcu]
    have h1 : lookupVar (updateVar s.vars n (errTransform msg)) n =
        some (errTransform msg var) := by
      rw [lookupVar_updateVar_self (errTransform msg) (fun _ => rfl), hvar]
      rfl
    refine ⟨errTransform msg var, ?_, rfl, rfl⟩
    simp only [failCascade]
    exact foldl_startGuarded_notok _ _ _ _ h1 rfl
  · intro v he
    rw [settledForReadiness, he]

/-- The chain state with B loading for the C9 witness. -/
def c9preFail : SetState := run chainSet [Event.activate, Event.complete "A" "v1" "v1",
  Event.complete "B" "w1" "w1", Event.complete "C" "u1" "u1", Event.setValue "A" "v2" "v2",
  Event.complete "B" "w2" "w2", Event.setValue "A" "v3" "v3"]

/-- The concrete loading variable B in `c9preFail`. -/
def c9varB : SVar :=
  { name := "B", query := "B.$A", value := "w2", text := "w2",
    status := VStatus.Loading, loading := some true, issuedQuery := some "B.v3",
    errMsg := none, everResolved := true, inFlight := 1 }

/-- The chain state after A's only update failed: A never resolved. -/
def c9stuck : SetState := run chainSet [Event.activate, Event.fail "A" "xx"]

/-- The concrete errored, never-resolved variable A in `c9stuck`. -/
def c9varA : SVar :=
  { name := "A", query := "A.*", value := "", text := "",
    status := VStatus.Error, loading := some false, issuedQuery := some "A.*",
    errMsg := some "xx", everResolved := false, inFlight := 0 }

/-- The concrete idle variable B in `c9stuck`. -/
def c9varBIdle : SVar := mkVar "B" "B.$A"

theorem c9_query_failure_witness :
    (lookupVar c9preFail.vars "B" = some c9varB ∧ c9varB.status = VStatus.Loading ∧
      (∃ var', lookupVar (failUpdate c9preFail "B" "boom").vars "B" = some var' ∧
        var'.status = VStatus.Error ∧ var'.errMsg = some "boom")) ∧
    (c9varA.status = VStatus.Error ∧
      (settledForReadiness c9varA = true ↔ c9varA.everResolved = true)) ∧
    (∃ bv', lookupVar (run c9stuck
        [Event.complete "B" "z" "z", Event.activate, Event.deactivate]).vars "B" = some bv' ∧
      bv'.status = VStatus.Idle) :=
  ⟨⟨by decide, by decide,
    c9_query_failure_settles_or_blocks.1 c9preFail "B" "boom" c9varB (by decide) (by decide)⟩,
   ⟨by decide, c9_query_failure_settles_or_blocks.2.1 c9varA (by decide)⟩,
   c9_query_failure_settles_or_blocks.2.2
     [Event.complete "B" "z" "z", Event.activate, Event.deactivate] c9stuck "A" "B"
     c9varA c9varBIdle (by decide) (Or.inr (by decide)) (by decide) (by decide) (by decide)
     (by decide) (by decide) (by decide) (by decide)⟩

end VarSched
